import Mathlib

/-!
Verification of the transaction processing and derivation engine of the
platform repository, against its natural-language specification.

The development shallowly embeds the relevant parts of
`server/core/src/server/storage.ts` (class `TServerStorage`),
`server/backup/src/backup.ts` (`loadDigest`, `IndexedFieldStage.collect`)
into Lean.  External collaborators that are not part of the verified slice
(the class/mixin `Hierarchy` registry, storage adapters, trigger plugins,
the SHA-1 primitive, JSON serialization) are modelled as abstract
parameters, bundled in an environment record, exactly as the specification
treats them (narrow adapter interfaces).

Conventions used throughout:
  * JavaScript `Map` objects are modelled as association lists with
    JS `Map.set` semantics (update in place when the key is present,
    append otherwise) and first-match `get`;
  * `undefined`-able values are `Option`s;
  * code that can throw returns `Except` / is flagged in its result;
  * object documents are records; the document store behind a domain
    adapter is a list of documents, and `findAll` filters it.
-/

/-- Object / document identifiers (`Ref<Doc>` in the source). -/
abbrev Ref := String

/-- Class identifiers (`Ref<Class<Doc>>` in the source). -/
abbrev ClassRef := String

/-- Storage domain names (`Domain` in the source). -/
abbrev DomainName := String

/-- `DOMAIN_MODEL` constant from the core package. -/
def DOMAIN_MODEL : DomainName := "model"

/-- `DOMAIN_TRANSIENT` constant from the core package. -/
def DOMAIN_TRANSIENT : DomainName := "transient"

/-- `core.space.DerivedTx`: the space stamped on derived transactions by
`TxFactory` when constructed with `isDerived = true`. -/
def spaceDerivedTx : Ref := "core:space:DerivedTx"

/-- `core.space.Model`. -/
def spaceModel : Ref := "core:space:Model"

/-- `core.space.Tx`: the space of client submitted transactions. -/
def spaceTx : Ref := "core:space:Tx"

/-- Modelled from the spec: `TxFactory` stamps fresh transactions with the
current clock (`Date.now()`).  Derivation logic only ever sorts by this
value, so it is modelled as a constant. -/
def nowConst : Int := 0

/-- The partial document-update payload of `TxUpdateDoc` / `TxMixin`
(`DocumentUpdate<D>` in the source), restricted to the fields the storage
engine reads: the re-parenting fields `attachedTo` / `attachedToClass` /
`collection`, the `space` field moved by space-move propagation, and the
`$inc` operator entries produced by collection counters. -/
structure DocumentUpdate where
  attachedTo : Option Ref := none
  attachedToClass : Option ClassRef := none
  collection : Option String := none
  space : Option Ref := none
  inc : List (String × Int) := []
deriving Repr, DecidableEq

/-- A stored document (`Doc` / `AttachedDoc` in the source).  The three
attached-doc fields are present on every record, mirroring the TypeScript
cast `object as AttachedDoc`; they are only read after an
`isDerived(_class, core.class.AttachedDoc)` check. -/
structure Doc where
  docId : Ref
  docClass : ClassRef
  space : Ref
  modifiedBy : Ref
  attachedTo : Ref := ""
  attachedToClass : ClassRef := ""
  collection : String := ""
deriving Repr, DecidableEq

/-- The metadata fields shared by every concrete transaction variant:
`modifiedBy`, `modifiedOn`, the transaction's own `space`, and the
`objectId` / `objectClass` / `objectSpace` of the CUD target. -/
structure TxData where
  modifiedBy : Ref
  modifiedOn : Int
  space : Ref
  objectId : Ref
  objectClass : ClassRef
  objectSpace : Ref
deriving Repr, DecidableEq

/-- The transaction tagged union (`Tx` in the source): `TxCreateDoc`,
`TxUpdateDoc`, `TxRemoveDoc`, `TxMixin`, `TxCollectionCUD` (with the nested
transaction), and `TxApplyIf` (scope plus the embedded transaction list;
predicate outcomes are abstracted where needed). -/
inductive Tx where
  | createDoc (d : TxData)
  | updateDoc (d : TxData) (operations : DocumentUpdate)
  | removeDoc (d : TxData)
  | mixinTx (d : TxData) (mixin : ClassRef) (attributes : DocumentUpdate)
  | collectionCUD (d : TxData) (collection : String) (tx : Tx)
  | applyIf (d : TxData) (scope : String) (txes : List Tx)
deriving Repr

mutual

/-- Decidable equality for the transaction union (hand written because the
nested `List Tx` under `applyIf` defeats the deriving handler). -/
def decEqTx : (a b : Tx) → Decidable (a = b)
  | .createDoc d, .createDoc d' =>
      if h : d = d' then .isTrue (by rw [h]) else .isFalse (fun he => h (by injection he))
  | .createDoc _, .updateDoc _ _ => .isFalse (fun h => Tx.noConfusion h)
  | .createDoc _, .removeDoc _ => .isFalse (fun h => Tx.noConfusion h)
  | .createDoc _, .mixinTx _ _ _ => .isFalse (fun h => Tx.noConfusion h)
  | .createDoc _, .collectionCUD _ _ _ => .isFalse (fun h => Tx.noConfusion h)
  | .createDoc _, .applyIf _ _ _ => .isFalse (fun h => Tx.noConfusion h)
  | .updateDoc d o, .updateDoc d' o' =>
      if h : d = d' ∧ o = o' then .isTrue (by rw [h.1, h.2])
      else .isFalse (fun he => by injection he; exact h ⟨by assumption, by assumption⟩)
  | .updateDoc _ _, .createDoc _ => .isFalse (fun h => Tx.noConfusion h)
  | .updateDoc _ _, .removeDoc _ => .isFalse (fun h => Tx.noConfusion h)
  | .updateDoc _ _, .mixinTx _ _ _ => .isFalse (fun h => Tx.noConfusion h)
  | .updateDoc _ _, .collectionCUD _ _ _ => .isFalse (fun h => Tx.noConfusion h)
  | .updateDoc _ _, .applyIf _ _ _ => .isFalse (fun h => Tx.noConfusion h)
  | .removeDoc d, .removeDoc d' =>
      if h : d = d' then .isTrue (by rw [h]) else .isFalse (fun he => h (by injection he))
  | .removeDoc _, .createDoc _ => .isFalse (fun h => Tx.noConfusion h)
  | .removeDoc _, .updateDoc _ _ => .isFalse (fun h => Tx.noConfusion h)
  | .removeDoc _, .mixinTx _ _ _ => .isFalse (fun h => Tx.noConfusion h)
  | .removeDoc _, .collectionCUD _ _ _ => .isFalse (fun h => Tx.noConfusion h)
  | .removeDoc _, .applyIf _ _ _ => .isFalse (fun h => Tx.noConfusion h)
  | .mixinTx d m o, .mixinTx d' m' o' =>
      if h : d = d' ∧ m = m' ∧ o = o' then .isTrue (by rw [h.1, h.2.1, h.2.2])
      else .isFalse (fun he => by
        injection he; exact h ⟨by assumption, by assumption, by assumption⟩)
  | .mixinTx _ _ _, .createDoc _ => .isFalse (fun h => Tx.noConfusion h)
  | .mixinTx _ _ _, .updateDoc _ _ => .isFalse (fun h => Tx.noConfusion h)
  | .mixinTx _ _ _, .removeDoc _ => .isFalse (fun h => Tx.noConfusion h)
  | .mixinTx _ _ _, .collectionCUD _ _ _ => .isFalse (fun h => Tx.noConfusion h)
  | .mixinTx _ _ _, .applyIf _ _ _ => .isFalse (fun h => Tx.noConfusion h)
  | .collectionCUD d c t, .collectionCUD d' c' t' =>
      if h : d = d' ∧ c = c' then
        match decEqTx t t' with
        | .isTrue ht => .isTrue (by rw [h.1, h.2, ht])
        | .isFalse ht => .isFalse (fun he => by injection he; exact ht (by assumption))
      else .isFalse (fun he => by injection he; exact h ⟨by assumption, by assumption⟩)
  | .collectionCUD _ _ _, .createDoc _ => .isFalse (fun h => Tx.noConfusion h)
  | .collectionCUD _ _ _, .updateDoc _ _ => .isFalse (fun h => Tx.noConfusion h)
  | .collectionCUD _ _ _, .removeDoc _ => .isFalse (fun h => Tx.noConfusion h)
  | .collectionCUD _ _ _, .mixinTx _ _ _ => .isFalse (fun h => Tx.noConfusion h)
  | .collectionCUD _ _ _, .applyIf _ _ _ => .isFalse (fun h => Tx.noConfusion h)
  | .applyIf d s l, .applyIf d' s' l' =>
      if h : d = d' ∧ s = s' then
        match decEqTxList l l' with
        | .isTrue ht => .isTrue (by rw [h.1, h.2, ht])
        | .isFalse ht => .isFalse (fun he => by injection he; exact ht (by assumption))
      else .isFalse (fun he => by injection he; exact h ⟨by assumption, by assumption⟩)
  | .applyIf _ _ _, .createDoc _ => .isFalse (fun h => Tx.noConfusion h)
  | .applyIf _ _ _, .updateDoc _ _ => .isFalse (fun h => Tx.noConfusion h)
  | .applyIf _ _ _, .removeDoc _ => .isFalse (fun h => Tx.noConfusion h)
  | .applyIf _ _ _, .mixinTx _ _ _ => .isFalse (fun h => Tx.noConfusion h)
  | .applyIf _ _ _, .collectionCUD _ _ _ => .isFalse (fun h => Tx.noConfusion h)

/-- Decidable equality for transaction lists, mutually with `decEqTx`. -/
def decEqTxList : (a b : List Tx) → Decidable (a = b)
  | [], [] => .isTrue rfl
  | [], _ :: _ => .isFalse (fun h => List.noConfusion h)
  | _ :: _, [] => .isFalse (fun h => List.noConfusion h)
  | a :: as, b :: bs =>
      match decEqTx a b with
      | .isTrue h1 =>
          match decEqTxList as bs with
          | .isTrue h2 => .isTrue (by rw [h1, h2])
          | .isFalse h2 => .isFalse (fun he => by injection he; exact h2 (by assumption))
      | .isFalse h1 => .isFalse (fun he => by injection he; exact h1 (by assumption))

end

instance : DecidableEq Tx := decEqTx

instance : DecidableEq (List Tx) := decEqTxList

namespace Tx

/-- The shared metadata of a transaction. -/
def data : Tx → TxData
  | .createDoc d => d
  | .updateDoc d _ => d
  | .removeDoc d => d
  | .mixinTx d _ _ => d
  | .collectionCUD d _ _ => d
  | .applyIf d _ _ => d

/-- `tx.modifiedOn`. -/
def modifiedOn (t : Tx) : Int := t.data.modifiedOn

/-- Modelled from the spec: `TxProcessor.extractTx` of the core package
unwraps the nested CUD out of a `TxCollectionCUD` and is the identity on
every other transaction class.  (For a nested `TxCreateDoc` the real helper
also copies the owning object id into the created attributes; created
attribute payloads are outside the verified slice.) -/
def extractTx : Tx → Tx
  | .collectionCUD _ _ inner => inner
  | t => t

/-- Whether the transaction's class is derived from `core.class.TxCUD`:
true for the five CUD variants, false for `TxApplyIf`.  This mirrors the
bootstrap class hierarchy, where all of `TxCreateDoc`, `TxUpdateDoc`,
`TxRemoveDoc`, `TxMixin` and `TxCollectionCUD` extend `TxCUD`. -/
def isCUD : Tx → Bool
  | .applyIf _ _ _ => false
  | _ => true

/-- Whether the transaction is a plain `TxRemoveDoc` (class equality test
`it._class === core.class.TxRemoveDoc` used by `routeTx`). -/
def isRemoveDoc : Tx → Bool
  | .removeDoc _ => true
  | _ => false

end Tx

/-! ### JavaScript `Map` semantics over association lists -/

/-- JS `Map.get`: first matching entry. -/
def jsGet {β : Type} (m : List (Ref × β)) (k : Ref) : Option β :=
  m.lookup k

/-- JS `Map.set`: update in place when present, append otherwise. -/
def jsSet {β : Type} (m : List (Ref × β)) (k : Ref) (v : β) : List (Ref × β) :=
  match m with
  | [] => [(k, v)]
  | (k', v') :: rest => if k' = k then (k, v) :: rest else (k', v') :: jsSet rest k v

/-- JS `Map.delete`.  A JS `Map` never holds duplicate keys, so removing
every matching entry agrees with removing the first. -/
def jsDelete {β : Type} (m : List (Ref × β)) (k : Ref) : List (Ref × β) :=
  m.filter (fun kv => kv.1 ≠ k)

/-- JS `Map.has`. -/
def jsHas {β : Type} (m : List (Ref × β)) (k : Ref) : Bool :=
  (jsGet m k).isSome

/-- The `removedMap`: removed document bodies keyed by id, captured before
deletion so that derivation can still read them. -/
abbrev RMap := List (Ref × Doc)

/-! ## Model / hash ledger (`setModel`, `addModelTx`, `loadModel`) -/

/-- The in-memory model transaction log and its running hash chain
(`this.model` and `this.hashes` of `TServerStorage`). -/
structure ModelState where
  model : List Tx
  hashes : List String
deriving Repr, DecidableEq

/-- One chained-hash step: `SHA1(prev || serialize(tx))`, with the SHA-1
primitive and the JSON serializer abstract. -/
def hashStep (sha1 : String → String) (serialize : Tx → String)
    (prev : String) (tx : Tx) : String :=
  sha1 (prev ++ serialize tx)

/-- The full hash chain of a model transaction list, seeded with the empty
string (`let prev = ''` in `setModel`). -/
def hashChain (sha1 : String → String) (serialize : Tx → String) :
    List Tx → String → List String
  | [], _ => []
  | tx :: rest, prev =>
      let h := hashStep sha1 serialize prev tx
      h :: hashChain sha1 serialize rest h

/-- `setModel`: store the model list and compute its hash chain. -/
def setModel (sha1 : String → String) (serialize : Tx → String)
    (model : List Tx) : ModelState :=
  { model := model, hashes := hashChain sha1 serialize model "" }

/-- `addModelTx`: push the transaction onto the log, then extend the hash
chain with `SHA1(hashes[last] || serialize(tx))`.  When the chain is empty,
`this.hashes[this.hashes.length - 1]` is `undefined` and Node's
`hash.update(undefined)` throws after the log push; the boolean result is
`false` exactly in that throwing case. -/
def addModelTx (sha1 : String → String) (serialize : Tx → String)
    (tx : Tx) (st : ModelState) : ModelState × Bool :=
  match st.hashes.getLast? with
  | none => ({ st with model := st.model ++ [tx] }, false)
  | some last =>
      ({ model := st.model ++ [tx],
         hashes := st.hashes ++ [hashStep sha1 serialize last tx] }, true)

/-- The `LoadModelResponse` record returned by `loadModel` when called with
a hash.  `hash` is `Option` because `this.hashes[this.hashes.length - 1]`
is `undefined` on an empty chain. -/
structure LoadModelResponse where
  full : Bool
  hash : Option String
  transactions : List Tx
deriving Repr, DecidableEq

/-- `loadModel(lastModelTx, hash)` for a present `hash` argument:
look the hash up in the chain (`indexOf`); on a hit return the suffix of
the model after that position with `full: false`, otherwise the whole model
with `full: true`; either way return the chain head hash. -/
def loadModelHash (st : ModelState) (hash : String) : LoadModelResponse :=
  let pos := st.hashes.indexOf hash
  if pos < st.hashes.length then
    { full := false
      hash := st.hashes.getLast?
      transactions := st.model.drop (pos + 1) }
  else
    { full := true
      hash := st.hashes.getLast?
      transactions := st.model }

/-- `loadModel(lastModelTx)` without a hash: the legacy timestamp filter. -/
def loadModelTimestamp (st : ModelState) (lastModelTx : Int) : List Tx :=
  st.model.filter (fun tx => lastModelTx < tx.modifiedOn)

/-- The claim-side response of C5, written from the specification's words:
a known hash at position `p` yields exactly `transactions[p+1:]` with
`full: false`; an unknown hash yields the entire model list with
`full: true`; both carry the chain's last element. -/
def loadModelSpecC5 (st : ModelState) (hash : String) : LoadModelResponse :=
  if hash ∈ st.hashes then
    { full := false
      hash := st.hashes.getLast?
      transactions := st.model.drop (st.hashes.indexOf hash + 1) }
  else
    { full := true
      hash := st.hashes.getLast?
      transactions := st.model }

/-- A placeholder transaction used only as the default of `List.getD`. -/
def dummyTx : Tx := Tx.createDoc { modifiedBy := "", modifiedOn := 0, space := ""
                                   objectId := "", objectClass := "", objectSpace := "" }

lemma hashChain_length (sha1 : String → String) (ser : Tx → String)
    (l : List Tx) (prev : String) :
    (hashChain sha1 ser l prev).length = l.length := by
  induction l generalizing prev with
  | nil => simp [hashChain]
  | cons tx rest ih => simp [hashChain, ih]

lemma hashChain_getD (sha1 : String → String) (ser : Tx → String) :
    ∀ (l : List Tx) (prev : String) (i : Nat), i < l.length →
      (hashChain sha1 ser l prev).getD i "" =
        hashStep sha1 ser
          (if i = 0 then prev else (hashChain sha1 ser l prev).getD (i - 1) "")
          (l.getD i dummyTx) := by
  intro l
  induction l with
  | nil => intro prev i h; simp at h
  | cons tx rest ih =>
      intro prev i h
      match i with
      | 0 => simp [hashChain]
      | Nat.succ j =>
          have hj : j < rest.length := by
            simpa [Nat.succ_lt_succ_iff] using h
          have := ih (hashStep sha1 ser prev tx) j hj
          match j with
          | 0 => simpa [hashChain] using this
          | Nat.succ k => simpa [hashChain] using this

/-- C5.  For every model state and hash argument, `loadModel` returns
exactly the specification's response: a hash found in the chain (first
occurrence, position `p = indexOf`) yields `full: false`, the chain's last
element, and exactly the model suffix after position `p`; an unknown hash
yields `full: true`, the chain's last element, and the entire model list.
(In the running system chain elements are pairwise distinct SHA-1 chain
values, so the occurrence position is unambiguous.) -/
theorem c5_loadModel_suffix_or_full (st : ModelState) (hash : String) :
    loadModelHash st hash = loadModelSpecC5 st hash := by
  unfold loadModelHash loadModelSpecC5
  by_cases h : hash ∈ st.hashes
  · rw [if_pos (List.indexOf_lt_length.mpr h), if_pos h]
  · rw [if_neg (fun hlt => h (List.indexOf_lt_length.mp hlt)), if_neg h]

/-- The fixed SHA-1 stand-in used by concrete counterexamples/witnesses. -/
def sha1Fix (s : String) : String := "H" ++ s

/-- The fixed serializer stand-in used by concrete counterexamples. -/
def serFix (_ : Tx) : String := "tx"

/-- C6, counterexample.  The claim says appending one model transaction via
`addModelTx` always extends the transaction log and the hash chain by one
element each.  On the state produced by `setModel` for the empty initial
model list, `this.hashes[this.hashes.length - 1]` is `undefined`, Node's
`hash.update(undefined)` throws after the `this.model.push(tx)`, and the
chain is not extended: the log grows to length 1 while the chain stays at
length 0. -/
theorem c6_counterexample :
    ¬ ((addModelTx sha1Fix serFix dummyTx (setModel sha1Fix serFix [])).1.hashes.length
        = (setModel sha1Fix serFix []).hashes.length + 1) := by
  decide

/-- C6, amended.  (a) `setModel` builds a chain of the same length as the
model list satisfying `hash[i] = SHA1(hash[i-1] || serialize(tx[i]))` with
`hash[-1] = ""`;  (b) whenever the chain is nonempty (which holds after
`setModel` of any nonempty bootstrap model and is preserved thereafter),
`addModelTx` extends the log and the chain by exactly one element each —
the new chain element hashes the previous head, and no earlier element is
recomputed; on an empty chain the append throws after the log push instead
(see the counterexample). -/
theorem c6_hash_chain_append (sha1 : String → String) (ser : Tx → String) :
    (∀ (model : List Tx),
        (setModel sha1 ser model).hashes.length = model.length ∧
        ∀ i, i < model.length →
          (setModel sha1 ser model).hashes.getD i "" =
            hashStep sha1 ser
              (if i = 0 then "" else (setModel sha1 ser model).hashes.getD (i - 1) "")
              (model.getD i dummyTx)) ∧
    (∀ (st : ModelState) (tx : Tx) (last : String),
        st.hashes.getLast? = some last →
        addModelTx sha1 ser tx st =
          ({ model := st.model ++ [tx],
             hashes := st.hashes ++ [hashStep sha1 ser last tx] }, true)) := by
  constructor
  · intro model
    exact ⟨hashChain_length sha1 ser model "",
           fun i hi => hashChain_getD sha1 ser model "" i hi⟩
  · intro st tx last hlast
    unfold addModelTx
    rw [hlast]

/-- Witness for C6: the amended theorem applied at a concrete two-element
chain state, with the hypothesis discharged by evaluation. -/
theorem c6_hash_chain_append_witness :
    addModelTx sha1Fix serFix dummyTx
        { model := [dummyTx], hashes := ["h0"] } =
      ({ model := [dummyTx, dummyTx], hashes := ["h0", hashStep sha1Fix serFix "h0" dummyTx] },
        true) := by
  have := (c6_hash_chain_append sha1Fix serFix).2
    { model := [dummyTx], hashes := ["h0"] } dummyTx "h0" (by decide)
  simpa using this

/-! ## Backup digest loading (`loadDigest` in `server/backup/src/backup.ts`) -/

/-- The cumulative digest: document id mapped to its content hash.  The
value is `Option String` because a malformed line without a separator makes
`it.split(';')[1]` come out `undefined`, which a JS `Map` stores as-is. -/
abbrev DigestMap := List (Ref × Option String)

/-- The legacy 0.6 whole-JSON snapshot shape (`SnapshotV6`). -/
structure SnapshotV6 where
  added : List (Ref × String)
  updated : List (Ref × String)
  removed : List Ref
deriving Repr, DecidableEq

/-- Per-domain data of one backup snapshot (`DomainData`); `snapshot` is
the optional legacy JSON digest file, `snapshots` the list of line-oriented
digest changeset files (the source reads `d?.snapshots ?? []`, so an absent
list behaves as the empty one). -/
structure DomainData where
  snapshot : Option String := none
  snapshots : List String := []
deriving Repr, DecidableEq

/-- One backup snapshot of the manifest (`BackupSnapshot`): per-domain data
plus the snapshot date used for early-stop. -/
structure BackupSnapshot where
  domains : List (DomainName × DomainData)
  date : Int
deriving Repr, DecidableEq

/-- Modelled from the spec: the backup storage collaborator, reduced to the
two read paths `loadDigest` uses.  `fileLines` is the gunzipped,
newline-split content of a line-oriented digest file — `none` models a
failing `loadFile`/`gunzipSync`, which the surrounding `try`/`catch` turns
into skipping that file; `fileJson` is the parsed legacy whole-JSON
snapshot (its load path has no catch, so failures there abort the whole
call and are outside this model). -/
structure BackupStorageModel where
  fileLines : String → Option (List String)
  fileJson : String → SnapshotV6

/-- JS `parseInt(dataBlob.shift() ?? '0')` as used on well-formed digest
files (`undefined` and non-numeric strings both end up contributing zero
entries, since `splice(0, NaN)` removes nothing). -/
def parseCount (s : Option String) : Nat :=
  ((s.getD "0").toNat?).getD 0

/-- `it.split(';')` destructured as `[k, v]`. -/
def splitSemi (s : String) : Ref × Option String :=
  let parts := s.splitOn ";"
  (parts.headD "", parts.get? 1)

/-- Apply one legacy whole-JSON snapshot to the digest: insert `added`,
then `updated`, then delete `removed`. -/
def digestApplyV6 (s : SnapshotV6) (m : DigestMap) : DigestMap :=
  let m1 := s.added.foldl (fun acc kv => jsSet acc kv.1 (some kv.2)) m
  let m2 := s.updated.foldl (fun acc kv => jsSet acc kv.1 (some kv.2)) m1
  s.removed.foldl (fun acc k => jsDelete acc k) m2

/-- Apply one line-oriented digest changeset (`count`, then `id;hash` lines
for added, again for updated, then plain `id` lines for removed). -/
def digestApplyLines (lines : List String) (m : DigestMap) : DigestMap :=
  let addedCount := parseCount lines.head?
  let rest1 := lines.drop 1
  let added := rest1.take addedCount
  let rest2 := rest1.drop addedCount
  let updatedCount := parseCount rest2.head?
  let rest3 := rest2.drop 1
  let updated := rest3.take updatedCount
  let rest4 := rest3.drop updatedCount
  let removedCount := parseCount rest4.head?
  let rest5 := rest4.drop 1
  let removed := rest5.take removedCount
  let m1 := added.foldl (fun acc it => let kv := splitSemi it; jsSet acc kv.1 kv.2) m
  let m2 := updated.foldl (fun acc it => let kv := splitSemi it; jsSet acc kv.1 kv.2) m1
  removed.foldl (fun acc k => jsDelete acc k) m2

/-- The per-snapshot body of `loadDigest`'s main loop for one domain:
legacy JSON snapshot first, then every line-oriented changeset file (a file
whose load fails is skipped by the `catch`). -/
def loadDigestStep (storage : BackupStorageModel) (domain : DomainName)
    (m : DigestMap) (s : BackupSnapshot) : DigestMap :=
  let d := jsGet s.domains domain
  let m1 :=
    match d.bind (fun dd => dd.snapshot) with
    | some name => digestApplyV6 (storage.fileJson name) m
    | none => m
  ((d.map (fun dd => dd.snapshots)).getD []).foldl
    (fun acc f =>
      match storage.fileLines f with
      | some lines => digestApplyLines lines acc
      | none => acc)
    m1

/-- `loadDigest` itself, starting from an arbitrary accumulated digest
(the real function starts from the empty map): fold the snapshots in
order, stopping early after a snapshot whose date equals the requested
target date. -/
def loadDigestFrom (storage : BackupStorageModel) (domain : DomainName)
    (m : DigestMap) : List BackupSnapshot → Option Int → DigestMap
  | [], _ => m
  | s :: rest, date =>
      let m1 := loadDigestStep storage domain m s
      if date = some s.date then m1
      else loadDigestFrom storage domain m1 rest date

/-- `loadDigest(ctx, storage, snapshots, domain)` with no target date. -/
def loadDigest (storage : BackupStorageModel) (domain : DomainName)
    (snapshots : List BackupSnapshot) : DigestMap :=
  loadDigestFrom storage domain [] snapshots none

/-- C8.  Digesting is a deterministic fold over the snapshot sequence: for
any split of the full-replay sequence, continuing incrementally from the
digest of the first part over the second part gives exactly the digest of
a fresh full reload of the whole sequence (both on-disk formats included in
the step function), so incremental and from-scratch computation agree. -/
theorem c8_digest_incremental_eq_full (storage : BackupStorageModel)
    (domain : DomainName) (m : DigestMap) (a b : List BackupSnapshot) :
    loadDigestFrom storage domain m (a ++ b) none =
      loadDigestFrom storage domain (loadDigestFrom storage domain m a none) b none := by
  induction a generalizing m with
  | nil => rfl
  | cons s rest ih =>
      simp only [List.cons_append, loadDigestFrom]
      split
      · simp_all
      · exact ih _

/-! ## Indexing pipeline: `IndexedFieldStage.collect` (C9) -/

/-- Per-document indexing ledger entry (`DocIndexState`), reduced to the
fields `collect`'s control flow reads. -/
structure DocIndexState where
  stateId : Ref
  objectClass : ClassRef
deriving Repr, DecidableEq

/-- The pipeline calls `collect` can make: watermark/attribute updates
(`pipeline.update` / `pipeline.add`, whose payloads belong to the abstract
per-document body) and removal marking (`pipeline.markRemove`). -/
inductive PipelineOp where
  | update (id : Ref)
  | markRemove (id : Ref)
deriving Repr, DecidableEq

/-- Modelled from the spec: the collaborators of one `collect` pass.
`findDocs cls kids` is `dbStorage.findAll(cls, by-id-in kids)`;
`processOne st doc` is the whole per-document `try`-body (content
extraction, change detection, parent/child propagation updates, final
watermark update) — it returns the pipeline calls it makes, or the
exception it throws; `cancelling` is the cooperative cancellation flag
(modelled as constant across one pass). -/
structure CollectEnv where
  findDocs : ClassRef → List Ref → List Doc
  processOne : DocIndexState → Doc → Except String (List PipelineOp)
  cancelling : Bool

/-- The `toIndex.reduce` grouping by `objectClass` (JS object key order:
first occurrence; values in encounter order). -/
def groupByClass (toIndex : List DocIndexState) :
    List (ClassRef × List DocIndexState) :=
  toIndex.foldl
    (fun acc st =>
      match jsGet acc st.objectClass with
      | some vs => jsSet acc st.objectClass (vs ++ [st])
      | none => acc ++ [(st.objectClass, [st])])
    []

/-- The inner per-document loop of `collect` for one class group: check the
cancellation flag, mark the document processed, run the `try`-body, and on
an exception log-and-continue (the `catch` with `continue`).  A document
whose index state is not found in `valueIds` fails inside the `try` on the
first field access and is likewise skipped.  The `Bool` result records the
early `return` taken on cancellation. -/
def collectDocsLoop (env : CollectEnv) (valueIds : List (Ref × DocIndexState)) :
    List Doc → List Ref → List PipelineOp → List Ref × List PipelineOp × Bool
  | [], processed, acc => (processed, acc, false)
  | doc :: rest, processed, acc =>
      if env.cancelling then (processed, acc, true)
      else
        let processed' := processed ++ [doc.docId]
        match jsGet valueIds doc.docId with
        | none => collectDocsLoop env valueIds rest processed' acc
        | some st =>
            match env.processOne st doc with
            | .ok ops => collectDocsLoop env valueIds rest processed' (acc ++ ops)
            | .error _ => collectDocsLoop env valueIds rest processed' acc

/-- The outer per-class loop of `collect`: build the `valueIds` map, fetch
the real documents, and run the inner loop; an early return propagates. -/
def collectClassLoop (env : CollectEnv) :
    List (ClassRef × List DocIndexState) → List Ref → List PipelineOp →
      List Ref × List PipelineOp × Bool
  | [], processed, acc => (processed, acc, false)
  | (cls, values) :: rest, processed, acc =>
      let valueIds := values.foldl (fun m st => jsSet m st.stateId st) []
      let docs := env.findDocs cls (valueIds.map Prod.fst)
      let r := collectDocsLoop env valueIds docs processed acc
      if r.2.2 then r else collectClassLoop env rest r.1 r.2.1

/-- `IndexedFieldStage.collect`: group by class, process every found
document (skipping individually failing ones), then — unless cancelling —
mark every state whose source document was not found for removal. -/
def ifsCollect (env : CollectEnv) (toIndex : List DocIndexState) : List PipelineOp :=
  let r := collectClassLoop env (groupByClass toIndex) [] []
  r.2.1 ++
    (if env.cancelling then []
     else (toIndex.filter (fun st => ¬ r.1.contains st.stateId)).map
       (fun st => PipelineOp.markRemove st.stateId))

/-- The claim-side description of one pass (C9's words): per class group
and per found document, a document whose processing succeeds contributes
its pipeline calls and a document whose processing throws contributes
nothing — independently of every other document — and the pass never
propagates an exception; found documents (including failing ones) count as
processed, and the remaining states are marked for removal. -/
def collectSpecC9 (env : CollectEnv) (toIndex : List DocIndexState) : List PipelineOp :=
  if env.cancelling then []
  else
    let groups := groupByClass toIndex
    let perGroup := fun (g : ClassRef × List DocIndexState) =>
      let valueIds := g.2.foldl (fun m st => jsSet m st.stateId st) []
      env.findDocs g.1 (valueIds.map Prod.fst)
    let processedIds := groups.flatMap (fun g => (perGroup g).map (fun d => d.docId))
    (groups.flatMap (fun g =>
        let valueIds := g.2.foldl (fun m st => jsSet m st.stateId st) []
        (perGroup g).flatMap (fun doc =>
          match jsGet valueIds doc.docId with
          | none => []
          | some st =>
              match env.processOne st doc with
              | .ok ops => ops
              | .error _ => []))) ++
      (toIndex.filter (fun st => ¬ processedIds.contains st.stateId)).map
        (fun st => PipelineOp.markRemove st.stateId)

lemma collectDocsLoop_cancelling (env : CollectEnv) (h : env.cancelling = true)
    (valueIds : List (Ref × DocIndexState)) :
    ∀ docs processed acc,
      collectDocsLoop env valueIds docs processed acc =
        (processed, acc, decide (docs ≠ [])) := by
  intro docs
  cases docs with
  | nil => intro processed acc; simp [collectDocsLoop]
  | cons d rest => intro processed acc; simp [collectDocsLoop, h]

lemma collectDocsLoop_not_cancelling (env : CollectEnv) (h : env.cancelling = false)
    (valueIds : List (Ref × DocIndexState)) :
    ∀ docs processed acc,
      collectDocsLoop env valueIds docs processed acc =
        (processed ++ docs.map (fun d => d.docId),
         acc ++ docs.flatMap (fun doc =>
           match jsGet valueIds doc.docId with
           | none => []
           | some st =>
               match env.processOne st doc with
               | .ok ops => ops
               | .error _ => []),
         false) := by
  intro docs
  induction docs with
  | nil => intro processed acc; simp [collectDocsLoop]
  | cons d rest ih =>
      intro processed acc
      simp only [collectDocsLoop, h, if_neg Bool.false_ne_true]
      cases hd : jsGet valueIds d.docId with
      | none => rw [ih]; simp [hd]
      | some st =>
          cases hp : env.processOne st d with
          | ok ops => simp only [hp]; rw [ih]; simp [hd, hp]
          | error e => simp only [hp]; rw [ih]; simp [hd, hp]

/-- C9.  One `collect` pass never lets a per-document exception escape:
it always returns, a throwing document is skipped for the pass, and every
other document's contribution is exactly what it would have been anyway —
the result is the claim-side per-document description. -/
theorem c9_collect_skips_failing_docs (env : CollectEnv) (toIndex : List DocIndexState) :
    ifsCollect env toIndex = collectSpecC9 env toIndex := by
  cases hc : env.cancelling with
  | true =>
      have hloop : ∀ groups processed acc,
          (collectClassLoop env groups processed acc).2.1 = acc := by
        intro groups
        induction groups with
        | nil => intro processed acc; simp [collectClassLoop]
        | cons g rest ih =>
            intro processed acc
            simp only [collectClassLoop,
              collectDocsLoop_cancelling env hc]
            cases hgd : env.findDocs g.1
                ((g.2.foldl (fun m st => jsSet m st.stateId st) []).map Prod.fst) with
            | nil => simpa [hgd] using ih processed acc
            | cons a b => simp [hgd]
      simp [ifsCollect, collectSpecC9, hc, hloop]
  | false =>
      have hloop : ∀ groups processed acc,
          collectClassLoop env groups processed acc =
            (processed ++ groups.flatMap (fun g =>
                (env.findDocs g.1
                  ((g.2.foldl (fun m st => jsSet m st.stateId st) []).map Prod.fst)).map
                  (fun d => d.docId)),
             acc ++ groups.flatMap (fun g =>
                let valueIds := g.2.foldl (fun m st => jsSet m st.stateId st) []
                (env.findDocs g.1 (valueIds.map Prod.fst)).flatMap (fun doc =>
                  match jsGet valueIds doc.docId with
                  | none => []
                  | some st =>
                      match env.processOne st doc with
                      | .ok ops => ops
                      | .error _ => [])),
             false) := by
        intro groups
        induction groups with
        | nil => intro processed acc; simp [collectClassLoop]
        | cons g rest ih =>
            intro processed acc
            simp only [collectClassLoop, collectDocsLoop_not_cancelling env hc]
            rw [ih]
            simp
      simp [ifsCollect, collectSpecC9, hc, hloop]

lemma jsGet_jsSet_self {β : Type} (m : List (Ref × β)) (k : Ref) (v : β) :
    jsGet (jsSet m k v) k = some v := by
  induction m with
  | nil => simp [jsGet, jsSet, List.lookup]
  | cons kv rest ih =>
      obtain ⟨a, b⟩ := kv
      simp only [jsSet]
      by_cases h : a = k
      · rw [if_pos h]; simp [jsGet, List.lookup]
      · rw [if_neg h]
        have hba : (k == a) = false := beq_eq_false_iff_ne.mpr (Ne.symm h)
        simp only [jsGet, List.lookup, hba]
        exact ih

lemma jsGet_jsSet_ne {β : Type} (m : List (Ref × β)) (k k' : Ref) (v : β)
    (h : k' ≠ k) : jsGet (jsSet m k v) k' = jsGet m k' := by
  induction m with
  | nil =>
      have hba : (k' == k) = false := beq_eq_false_iff_ne.mpr h
      simp [jsGet, jsSet, List.lookup, hba]
  | cons kv rest ih =>
      obtain ⟨a, b⟩ := kv
      simp only [jsSet]
      by_cases hk : a = k
      · rw [if_pos hk]
        subst hk
        have hba : (k' == a) = false := beq_eq_false_iff_ne.mpr h
        simp [jsGet, List.lookup, hba]
      · rw [if_neg hk]
        simp only [jsGet, List.lookup]
        cases hba : k' == a
        · exact ih
        · rfl

lemma jsGet_jsDelete_self {β : Type} (m : List (Ref × β)) (k : Ref) :
    jsGet (jsDelete m k) k = none := by
  induction m with
  | nil => simp [jsGet, jsDelete, List.lookup]
  | cons kv rest ih =>
      obtain ⟨a, b⟩ := kv
      simp only [jsDelete, List.filter_cons] at ih ⊢
      by_cases h : a = k
      · simpa [h] using ih
      · rw [if_pos (by simpa using h)]
        have hba : (k == a) = false := beq_eq_false_iff_ne.mpr (Ne.symm h)
        simp only [jsGet, List.lookup, hba]
        exact ih

lemma jsGet_jsDelete_ne {β : Type} (m : List (Ref × β)) (k k' : Ref)
    (h : k' ≠ k) : jsGet (jsDelete m k) k' = jsGet m k' := by
  induction m with
  | nil => simp [jsGet, jsDelete, List.lookup]
  | cons kv rest ih =>
      obtain ⟨a, b⟩ := kv
      simp only [jsDelete, List.filter_cons] at ih ⊢
      by_cases hk : a = k
      · subst hk
        rw [if_neg (by simp)]
        have hba : (k' == a) = false := beq_eq_false_iff_ne.mpr h
        simp only [jsGet, List.lookup, hba]
        exact ih
      · rw [if_pos (by simpa using hk)]
        simp only [jsGet, List.lookup]
        cases hba : k' == a
        · exact ih
        · rfl

/-! ## Apply-if scope serialization: `verifyApplyIf` under concurrency (C4)

`verifyApplyIf` runs inside Node's cooperative event loop.  Its body is a
sequence of atomic segments separated by `await` suspension points:

  1. read `this.scopes.get(applyIf.scope)` and suspend awaiting it
     (awaiting `undefined` still yields to the microtask queue);
  2. on resumption, synchronously install a fresh unresolved promise under
     the scope key and begin evaluating the match / notMatch predicates
     (the evaluation itself awaits `findAll` calls);
  3. the caller eventually invokes the returned `onEnd`, which deletes the
     scope entry (unconditionally) and resolves the installed promise.

The model below is exactly that: each in-flight `TxApplyIf` is a process
whose program counter walks entry → waiting → evaluating → finished, and a
scheduler step relation in which a waiting process may resume only once
the promise it observed at entry is resolved. -/

/-- Promise identities. -/
abbrev PromiseId := Nat

/-- Program counter of one in-flight `verifyApplyIf` execution.
`waiting w` records the promise observed in the scopes map at entry
(`none` when the scope was empty); `evaluating pid w` carries the promise
the process installed and the one it had observed. -/
inductive Pc where
  | entry
  | waiting (w : Option PromiseId)
  | evaluating (pid : PromiseId) (w : Option PromiseId)
  | finished (pid : PromiseId) (w : Option PromiseId)
deriving Repr, DecidableEq

/-- One in-flight apply-if execution: its scope string and program
counter. -/
structure ApplyProc where
  scope : String
  pc : Pc
deriving Repr, DecidableEq

/-- The shared state: the processes, the `scopes` map (scope name to the
currently registered promise), the set of resolved promises, and a fresh
promise counter. -/
structure Sys where
  procs : List ApplyProc
  scopes : List (String × PromiseId)
  resolved : List PromiseId
  fresh : PromiseId
deriving Repr, DecidableEq

/-- Scheduler step kinds: the three atomic segments of `verifyApplyIf`. -/
inductive StepKind where
  | read
  | install
  | finish
deriving Repr, DecidableEq

/-- One atomic segment of process `p` (at index `i`): the step bodies of
the three segments described above. -/
def stepProc (s : Sys) (i : Nat) (p : ApplyProc) (k : StepKind) : Option Sys :=
  match k, p.pc with
  | .read, .entry =>
      some { s with procs := s.procs.set i { p with pc := .waiting (jsGet s.scopes p.scope) } }
  | .install, .waiting w =>
      if (match w with | none => true | some q => s.resolved.contains q) then
        some { s with
               procs := s.procs.set i { p with pc := .evaluating s.fresh w }
               scopes := jsSet s.scopes p.scope s.fresh
               fresh := s.fresh + 1 }
      else none
  | .finish, .evaluating pid w =>
      some { s with
             procs := s.procs.set i { p with pc := .finished pid w }
             scopes := jsDelete s.scopes p.scope
             resolved := s.resolved ++ [pid] }
  | _, _ => none

/-- Execute one atomic segment of process `i`; `none` when that segment is
not currently enabled (wrong program counter, or the awaited promise is
unresolved). -/
def stepRun (s : Sys) (k : StepKind) (i : Nat) : Option Sys :=
  match s.procs.get? i with
  | none => none
  | some p => stepProc s i p k

/-- Run a schedule (a list of steps); `none` when some step is not
enabled. -/
def runTrace (s : Sys) : List (StepKind × Nat) → Option Sys
  | [] => some s
  | st :: rest =>
      match stepRun s st.1 st.2 with
      | some s1 => runTrace s1 rest
      | none => none

/-- Whether process `i` is currently inside its evaluation-to-completion
window. -/
def isEvaluating (s : Sys) (i : Nat) : Bool :=
  match s.procs.get? i with
  | some p => match p.pc with | .evaluating _ _ => true | _ => false
  | none => false

/-- Whether processes `i` and `j` name the same scope. -/
def sameScope (s : Sys) (i j : Nat) : Bool :=
  match s.procs.get? i, s.procs.get? j with
  | some p, some q => p.scope == q.scope
  | _, _ => false

/-- Initial state: two apply-if executions against the same scope `"s"`,
empty scopes map. -/
def c4Sys0 : Sys :=
  { procs := [{ scope := "s", pc := .entry }, { scope := "s", pc := .entry }]
    scopes := [], resolved := [], fresh := 0 }

/-- The racing schedule: both processes read the (empty) scope entry and
suspend before either installs; then both install and evaluate. -/
def c4Steps : List (StepKind × Nat) :=
  [(.read, 0), (.read, 1), (.install, 0), (.install, 1)]

/-- C4, counterexample.  The claim says two `TxApplyIf` transactions naming
the same scope never have overlapping evaluation-to-completion windows.
Under the cooperative scheduler the schedule `c4Steps` is valid — both
executions read `scopes.get("s")` as `undefined` before either resumes —
and it reaches a state in which both are simultaneously mid-evaluation on
the same scope: the windows overlap. -/
theorem c4_counterexample :
    (runTrace c4Sys0 c4Steps).map
        (fun s => isEvaluating s 0 && isEvaluating s 1 && sameScope s 0 1) =
      some true := by
  decide

/-- The observed-promise obligation for one process: if it is evaluating
(or done) and it had observed an in-flight promise at entry, that promise
has been resolved. -/
def pcObsOk (s : Sys) (p : ApplyProc) : Bool :=
  match p.pc with
  | .evaluating _ (some w) => s.resolved.contains w
  | .finished _ (some w) => s.resolved.contains w
  | _ => true

/-- The serialization guarantee the implementation actually provides:
every process that observed an in-flight promise at entry evaluates only
after that promise was resolved (by the observed holder's `onEnd`). -/
def sysInv (s : Sys) : Prop :=
  ∀ p ∈ s.procs, pcObsOk s p = true

instance (s : Sys) : Decidable (sysInv s) := by
  unfold sysInv
  infer_instance

lemma stepRun_inv (s : Sys) (k : StepKind) (i : Nat) (s1 : Sys)
    (h : stepRun s k i = some s1) (hinv : sysInv s) : sysInv s1 := by
  unfold stepRun at h
  cases hp : s.procs.get? i with
  | none => rw [hp] at h; exact absurd h (by simp)
  | some p =>
      rw [hp] at h
      dsimp only at h
      unfold stepProc at h
      have hmem : p ∈ s.procs := List.get?_mem hp
      cases k with
      | read =>
          cases hpc : p.pc with
          | entry =>
              rw [hpc] at h
              dsimp only at h
              injection h with h
              subst h
              intro q hq
              rcases List.mem_or_eq_of_mem_set hq with hq | hq
              · exact hinv q hq
              · subst hq; rfl
          | waiting w => rw [hpc] at h; exact absurd h (by simp)
          | evaluating pid w => rw [hpc] at h; exact absurd h (by simp)
          | finished pid w => rw [hpc] at h; exact absurd h (by simp)
      | install =>
          cases hpc : p.pc with
          | waiting w =>
              rw [hpc] at h
              dsimp only at h
              cases w with
              | none =>
                  rw [if_pos rfl] at h
                  injection h with h
                  subst h
                  intro q hq
                  rcases List.mem_or_eq_of_mem_set hq with hq | hq
                  · have := hinv q hq
                    unfold pcObsOk at this ⊢
                    exact this
                  · subst hq
                    rfl
              | some pw =>
                  by_cases hg : s.resolved.contains pw = true
                  · rw [if_pos hg] at h
                    injection h with h
                    subst h
                    intro q hq
                    rcases List.mem_or_eq_of_mem_set hq with hq | hq
                    · have := hinv q hq
                      unfold pcObsOk at this ⊢
                      exact this
                    · subst hq
                      simpa [pcObsOk] using hg
                  · rw [if_neg hg] at h; exact absurd h (by simp)
          | entry => rw [hpc] at h; exact absurd h (by simp)
          | evaluating pid w => rw [hpc] at h; exact absurd h (by simp)
          | finished pid w => rw [hpc] at h; exact absurd h (by simp)
      | finish =>
          cases hpc : p.pc with
          | evaluating pid w =>
              rw [hpc] at h
              dsimp only at h
              injection h with h
              subst h
              have hres : ∀ q : PromiseId, s.resolved.contains q = true →
                  (s.resolved ++ [pid]).contains q = true := by
                intro q hqres
                have : q ∈ s.resolved := by simpa [List.contains, List.elem_iff] using hqres
                simp [List.contains, List.elem_iff, List.mem_append, this]
              intro q hq
              rcases List.mem_or_eq_of_mem_set hq with hq | hq
              · have := hinv q hq
                unfold pcObsOk at this ⊢
                cases hqpc : q.pc with
                | entry => rfl
                | waiting w2 => rfl
                | evaluating pid2 w2 =>
                    rw [hqpc] at this
                    cases w2 with
                    | none => rfl
                    | some pw => exact hres pw this
                | finished pid2 w2 =>
                    rw [hqpc] at this
                    cases w2 with
                    | none => rfl
                    | some pw => exact hres pw this
              · subst hq
                have := hinv p hmem
                unfold pcObsOk at this ⊢
                rw [hpc] at this
                cases w with
                | none => rfl
                | some pw =>
                    exact (by
                      have : pw ∈ s.resolved := by
                        simpa [List.contains, List.elem_iff] using this
                      simp [List.contains, List.elem_iff, List.mem_append, this])
          | entry => rw [hpc] at h; exact absurd h (by simp)
          | waiting w => rw [hpc] at h; exact absurd h (by simp)
          | finished pid w => rw [hpc] at h; exact absurd h (by simp)

/-- Initial state with two different scopes, and the interleaved schedule
showing they may evaluate concurrently. -/
def c4DiffSys0 : Sys :=
  { procs := [{ scope := "a", pc := .entry }, { scope := "b", pc := .entry }]
    scopes := [], resolved := [], fresh := 0 }

/-- C4, amended.  What the promise chain actually guarantees: (a) along
every valid schedule, a `TxApplyIf` that observed an in-flight promise for
its scope at entry is evaluating or finished only once that promise has
been resolved (i.e. only after the observed holder's `onEnd` ran) — but
two executions that both read the scope before either installed, or
several waiters woken by the same resolution, may evaluate concurrently,
so pairwise mutual exclusion does not hold in general (see the
counterexample); and (b) executions naming different scopes are not
serialized against each other at all and may overlap freely. -/
theorem c4_observed_promise_serialization :
    (∀ (s0 : Sys) (tr : List (StepKind × Nat)) (s : Sys),
        sysInv s0 → runTrace s0 tr = some s → sysInv s) ∧
    (runTrace c4DiffSys0 c4Steps).map
        (fun s => isEvaluating s 0 && isEvaluating s 1) = some true := by
  constructor
  · intro s0 tr
    induction tr generalizing s0 with
    | nil =>
        intro s hinv h
        simp only [runTrace] at h
        injection h with h
        subst h
        exact hinv
    | cons st rest ih =>
        intro s hinv h
        simp only [runTrace] at h
        cases hs1 : stepRun s0 st.1 st.2 with
        | none => rw [hs1] at h; exact absurd h (by simp)
        | some s1 =>
            rw [hs1] at h
            exact ih s1 s (stepRun_inv s0 st.1 st.2 s1 hs1 hinv) h
  · decide

/-- The proper hand-off schedule used as a witness: the second execution
observes the first one's promise, and only installs after it resolved. -/
def c4WitnessSteps : List (StepKind × Nat) :=
  [(.read, 0), (.install, 0), (.read, 1), (.finish, 0), (.install, 1), (.finish, 1)]

/-- The state reached by the witness schedule. -/
def c4WitnessEnd : Sys :=
  (runTrace c4Sys0 c4WitnessSteps).getD c4Sys0

/-- Witness for C4's amended theorem: applied at the concrete hand-off
schedule, whose hypotheses evaluate away. -/
theorem c4_observed_promise_serialization_witness : sysInv c4WitnessEnd :=
  c4_observed_promise_serialization.1 c4Sys0 c4WitnessSteps c4WitnessEnd
    (by decide) (by decide)

/-! ## Scope release in `processTxes` (C10) -/

/-- Whether a transaction's class is derived from `core.class.TxApplyIf`
(the test `fillTxes` uses to route it into `applyTxes`). -/
def isApplyIfB : Tx → Bool
  | .applyIf _ _ _ => true
  | _ => false

mutual

/-- Structural weight of a transaction, used as the termination measure of
the apply-if worklist loop. -/
def txWeight : Tx → Nat
  | .createDoc _ => 1
  | .updateDoc _ _ => 1
  | .removeDoc _ => 1
  | .mixinTx _ _ _ => 1
  | .collectionCUD _ _ t => 1 + txWeight t
  | .applyIf _ _ txes => 1 + txListWeight txes

/-- Summed weight of a transaction list. -/
def txListWeight : List Tx → Nat
  | [] => 0
  | t :: ts => txWeight t + txListWeight ts

end

lemma txWeight_pos (t : Tx) : 1 ≤ txWeight t := by
  cases t <;> simp [txWeight]

lemma txListWeight_append (a b : List Tx) :
    txListWeight (a ++ b) = txListWeight a + txListWeight b := by
  induction a with
  | nil => simp [txListWeight]
  | cons t ts ih => simp [txListWeight, ih]; omega

lemma txListWeight_filter_le (p : Tx → Bool) (l : List Tx) :
    txListWeight (l.filter p) ≤ txListWeight l := by
  induction l with
  | nil => simp [txListWeight]
  | cons t ts ih =>
      rw [List.filter_cons]
      by_cases h : p t = true
      · rw [if_pos h]; simp [txListWeight]; omega
      · rw [if_neg h]; simp [txListWeight]
        calc txListWeight (ts.filter p) ≤ txListWeight ts := ih
          _ ≤ txWeight t + txListWeight ts := by omega

/-- The scope bookkeeping state owned by `TServerStorage`: the `scopes`
map (scope name to pending promise), the resolved promises, and a fresh
promise counter. -/
structure ScopeState where
  scopes : List (String × PromiseId)
  resolved : List PromiseId
  fresh : PromiseId
deriving Repr, DecidableEq

/-- Modelled from the spec: the abstracted collaborators of one
`processTxes` call — the outcome of each apply-if's match/notMatch
predicate evaluation (which runs `findAll` and may therefore throw), and
the outcome of the remainder of the body (model bookkeeping, `domain-tx`
adapter store, routing, derivation, full-text notification), which may
also throw. -/
structure ApplyEnv where
  evalOutcome : Tx → Except String Bool
  restOutcome : Except String Unit

/-- The `for (const tx of applyTxes)` loop of `processTxes`, at the level
of scope bookkeeping: each apply-if transaction runs `verifyApplyIf`,
which installs a fresh promise under its scope and then evaluates the
match/notMatch predicates.  When evaluation returns, the `onEnd` token is
collected (unconditionally) and a passing apply-if appends the apply-if
transactions nested in its `txes` to the worklist being iterated (the
nested `fillTxes` call pushing onto `applyTxes` mid-iteration).  When
evaluation throws, `verifyApplyIf` rejects after the promise was installed
but before the caller could collect `onEnd`: the loop aborts with the
installed entry (and the error) as the leak.  Returns the final state,
every collected `onEnd` token in collection order, and the leaked entry
with its error, if any. -/
def applyLoop (env : ApplyEnv) :
    List Tx → ScopeState →
      ScopeState × List (String × PromiseId) × Option (String × PromiseId × String)
  | [], st => (st, [], none)
  | tx :: rest, st =>
      match tx with
      | .applyIf _ scope txes =>
          let pid := st.fresh
          let st1 : ScopeState :=
            { scopes := jsSet st.scopes scope pid
              resolved := st.resolved
              fresh := st.fresh + 1 }
          (match env.evalOutcome tx with
           | .error e => (st1, [], some (scope, pid, e))
           | .ok passed =>
               let wl := if passed then rest ++ txes.filter isApplyIfB else rest
               let r := applyLoop env wl st1
               (r.1, (scope, pid) :: r.2.1, r.2.2))
      | _ => applyLoop env rest st
  termination_by wl _ => txListWeight wl
  decreasing_by
    all_goals simp_wf
    · rename_i d sc txs
      simp only [txListWeight, txWeight]
      split
      · rw [txListWeight_append]
        have h1 := txListWeight_filter_le isApplyIfB txs
        omega
      · omega
    · rename_i t
      have := txWeight_pos t
      simp only [txListWeight]
      omega

/-- The `finally` block: run every collected `onEnd` in order — each one
deletes its scope's entry from the scopes map and resolves its promise. -/
def runOnEnds (tokens : List (String × PromiseId)) (st : ScopeState) : ScopeState :=
  tokens.foldl
    (fun st t =>
      { scopes := jsDelete st.scopes t.1
        resolved := st.resolved ++ [t.2]
        fresh := st.fresh })
    st

/-- The scope-bookkeeping slice of `processTxes`: split out the apply-if
transactions (`fillTxes` routes exactly the `TxApplyIf`-derived ones into
`applyTxes`), run the verification loop — which aborts if one
`verifyApplyIf` throws —, run the abstracted remainder of the body when it
did not, and — normally or on a throw — run every collected `onEnd` in
the `finally`.  Returns the outcome, the final scope state, the collected
tokens, and the leaked entry, if any. -/
def processTxesScopes (env : ApplyEnv) (txes : List Tx) (st0 : ScopeState) :
    Except String Unit × ScopeState × List (String × PromiseId)
      × Option (String × PromiseId × String) :=
  let applyTxes := txes.filter isApplyIfB
  let r := applyLoop env applyTxes st0
  let st2 := runOnEnds r.2.1 r.1
  ((match r.2.2 with
    | some l => Except.error l.2.2
    | none => env.restOutcome),
   st2, r.2.1, r.2.2)

lemma runOnEnds_scopes_get (tokens : List (String × PromiseId)) :
    ∀ (st : ScopeState) (s : String),
      jsGet (runOnEnds tokens st).scopes s =
        if s ∈ tokens.map Prod.fst then none else jsGet st.scopes s := by
  induction tokens with
  | nil => intro st s; simp [runOnEnds]
  | cons t rest ih =>
      intro st s
      have hstep : runOnEnds (t :: rest) st =
          runOnEnds rest
            { scopes := jsDelete st.scopes t.1
              resolved := st.resolved ++ [t.2]
              fresh := st.fresh } := rfl
      rw [hstep, ih]
      by_cases h1 : s ∈ rest.map Prod.fst
      · simp [h1]
      · by_cases h2 : s = t.1
        · subst h2
          simp [h1, jsGet_jsDelete_self]
        · simp [h1, h2, jsGet_jsDelete_ne _ _ _ h2]

lemma runOnEnds_resolved (tokens : List (String × PromiseId)) :
    ∀ (st : ScopeState),
      (runOnEnds tokens st).resolved = st.resolved ++ tokens.map Prod.snd := by
  induction tokens with
  | nil => intro st; simp [runOnEnds]
  | cons t rest ih =>
      intro st
      have hstep : runOnEnds (t :: rest) st =
          runOnEnds rest
            { scopes := jsDelete st.scopes t.1
              resolved := st.resolved ++ [t.2]
              fresh := st.fresh } := rfl
      rw [hstep, ih]
      simp

lemma applyLoop_resolved (env : ApplyEnv) :
    ∀ (wl : List Tx) (st : ScopeState),
      (applyLoop env wl st).1.resolved = st.resolved := by
  suffices key : ∀ (n : Nat) (wl : List Tx) (st : ScopeState), txListWeight wl ≤ n →
      (applyLoop env wl st).1.resolved = st.resolved by
    intro wl st
    exact key (txListWeight wl) wl st le_rfl
  intro n
  induction n with
  | zero =>
      intro wl st hle
      match wl with
      | [] => simp [applyLoop]
      | tx :: rest =>
          exfalso
          have := txWeight_pos tx
          simp [txListWeight] at hle
          omega
  | succ n ih =>
      intro wl st hle
      match wl with
      | [] => simp [applyLoop]
      | tx :: rest =>
          have hle2 : txWeight tx + txListWeight rest ≤ n + 1 := by
            simpa [txListWeight] using hle
          match tx with
          | .applyIf d sc txs =>
              simp only [applyLoop]
              have hw : 1 + txListWeight txs + txListWeight rest ≤ n + 1 := by
                simpa [txWeight] using hle2
              cases ho : env.evalOutcome (Tx.applyIf d sc txs) with
              | error e => rfl
              | ok passed =>
                  dsimp only
                  split
                  · rw [ih _ _ (by
                      rw [txListWeight_append]
                      have h1 := txListWeight_filter_le isApplyIfB txs
                      omega)]
                  · rw [ih _ _ (by omega)]
          | .createDoc d =>
              simp only [applyLoop]
              exact ih _ _ (by simp [txWeight] at hle2; omega)
          | .updateDoc d o =>
              simp only [applyLoop]
              exact ih _ _ (by simp [txWeight] at hle2; omega)
          | .removeDoc d =>
              simp only [applyLoop]
              exact ih _ _ (by simp [txWeight] at hle2; omega)
          | .mixinTx d m a =>
              simp only [applyLoop]
              exact ih _ _ (by simp [txWeight] at hle2; omega)
          | .collectionCUD d c t =>
              simp only [applyLoop]
              exact ih _ _ (by
                have := txWeight_pos (Tx.collectionCUD d c t)
                omega)

lemma applyLoop_scopes_outside (env : ApplyEnv) :
    ∀ (wl : List Tx) (st : ScopeState) (s : String),
      s ∉ (applyLoop env wl st).2.1.map Prod.fst →
      (∀ l ∈ (applyLoop env wl st).2.2, s ≠ l.1) →
      jsGet (applyLoop env wl st).1.scopes s = jsGet st.scopes s := by
  suffices key : ∀ (n : Nat) (wl : List Tx) (st : ScopeState) (s : String),
      txListWeight wl ≤ n →
      s ∉ (applyLoop env wl st).2.1.map Prod.fst →
      (∀ l ∈ (applyLoop env wl st).2.2, s ≠ l.1) →
      jsGet (applyLoop env wl st).1.scopes s = jsGet st.scopes s by
    intro wl st s
    exact key (txListWeight wl) wl st s le_rfl
  intro n
  induction n with
  | zero =>
      intro wl st s hle
      match wl with
      | [] => intro _ _; simp [applyLoop]
      | tx :: rest =>
          exfalso
          have := txWeight_pos tx
          simp [txListWeight] at hle
          omega
  | succ n ih =>
      intro wl st s hle
      match wl with
      | [] => intro _ _; simp [applyLoop]
      | tx :: rest =>
          have hle2 : txWeight tx + txListWeight rest ≤ n + 1 := by
            simpa [txListWeight] using hle
          match tx with
          | .applyIf d sc txs =>
              simp only [applyLoop]
              have hw : 1 + txListWeight txs + txListWeight rest ≤ n + 1 := by
                simpa [txWeight] using hle2
              cases ho : env.evalOutcome (Tx.applyIf d sc txs) with
              | error e =>
                  dsimp only
                  intro hs hl
                  have hne : s ≠ sc := hl (sc, st.fresh, e) rfl
                  exact jsGet_jsSet_ne _ _ _ _ hne
              | ok passed =>
                  dsimp only
                  split
                  · intro hs hl
                    simp only [List.map_cons, List.mem_cons] at hs
                    push_neg at hs
                    rw [ih _ _ _ (by
                        rw [txListWeight_append]
                        have h1 := txListWeight_filter_le isApplyIfB txs
                        omega)
                      (by simpa using hs.2) hl]
                    exact jsGet_jsSet_ne _ _ _ _ hs.1
                  · intro hs hl
                    simp only [List.map_cons, List.mem_cons] at hs
                    push_neg at hs
                    rw [ih _ _ _ (by omega) (by simpa using hs.2) hl]
                    exact jsGet_jsSet_ne _ _ _ _ hs.1
          | .createDoc d =>
              simp only [applyLoop]
              exact ih _ _ _ (by simp [txWeight] at hle2; omega)
          | .updateDoc d o =>
              simp only [applyLoop]
              exact ih _ _ _ (by simp [txWeight] at hle2; omega)
          | .removeDoc d =>
              simp only [applyLoop]
              exact ih _ _ _ (by simp [txWeight] at hle2; omega)
          | .mixinTx d m a =>
              simp only [applyLoop]
              exact ih _ _ _ (by simp [txWeight] at hle2; omega)
          | .collectionCUD d c t =>
              simp only [applyLoop]
              exact ih _ _ _ (by
                have := txWeight_pos (Tx.collectionCUD d c t)
                omega)

lemma applyLoop_leak (env : ApplyEnv) :
    ∀ (wl : List Tx) (st : ScopeState) (l : String × PromiseId × String),
      (applyLoop env wl st).2.2 = some l →
      jsGet (applyLoop env wl st).1.scopes l.1 = some l.2.1 := by
  suffices key : ∀ (n : Nat) (wl : List Tx) (st : ScopeState)
      (l : String × PromiseId × String), txListWeight wl ≤ n →
      (applyLoop env wl st).2.2 = some l →
      jsGet (applyLoop env wl st).1.scopes l.1 = some l.2.1 by
    intro wl st l
    exact key (txListWeight wl) wl st l le_rfl
  intro n
  induction n with
  | zero =>
      intro wl st l hle
      match wl with
      | [] => intro h; simp [applyLoop] at h
      | tx :: rest =>
          exfalso
          have := txWeight_pos tx
          simp [txListWeight] at hle
          omega
  | succ n ih =>
      intro wl st l hle
      match wl with
      | [] => intro h; simp [applyLoop] at h
      | tx :: rest =>
          have hle2 : txWeight tx + txListWeight rest ≤ n + 1 := by
            simpa [txListWeight] using hle
          match tx with
          | .applyIf d sc txs =>
              simp only [applyLoop]
              have hw : 1 + txListWeight txs + txListWeight rest ≤ n + 1 := by
                simpa [txWeight] using hle2
              cases ho : env.evalOutcome (Tx.applyIf d sc txs) with
              | error e =>
                  dsimp only
                  intro h
                  injection h with h
                  rw [← h]
                  exact jsGet_jsSet_self _ _ _
              | ok passed =>
                  dsimp only
                  split
                  · exact ih _ _ _ (by
                      rw [txListWeight_append]
                      have h1 := txListWeight_filter_le isApplyIfB txs
                      omega)
                  · exact ih _ _ _ (by omega)
          | .createDoc d =>
              simp only [applyLoop]
              exact ih _ _ _ (by simp [txWeight] at hle2; omega)
          | .updateDoc d o =>
              simp only [applyLoop]
              exact ih _ _ _ (by simp [txWeight] at hle2; omega)
          | .removeDoc d =>
              simp only [applyLoop]
              exact ih _ _ _ (by simp [txWeight] at hle2; omega)
          | .mixinTx d m a =>
              simp only [applyLoop]
              exact ih _ _ _ (by simp [txWeight] at hle2; omega)
          | .collectionCUD d c t =>
              simp only [applyLoop]
              exact ih _ _ _ (by
                have := txWeight_pos (Tx.collectionCUD d c t)
                omega)

/-- Concrete environment for the C10 counterexample: the first apply-if's
predicate evaluation throws (its `findAll` fails), before the body runs. -/
def c10EnvE : ApplyEnv :=
  { evalOutcome := fun _ => Except.error "findAll failed"
    restOutcome := Except.ok () }

/-- A concrete apply-if transaction naming scope `"sc"`. -/
def c10TxW : Tx :=
  Tx.applyIf
    { modifiedBy := "u", modifiedOn := 0, space := spaceTx
      objectId := "", objectClass := "", objectSpace := "" }
    "sc" []

/-- The empty initial scope state. -/
def c10St0 : ScopeState := { scopes := [], resolved := [], fresh := 0 }

/-- C10, counterexample.  The claim says every scope entry that
`verifyApplyIf` installs is released by the time `processTxes` returns,
normally or by throwing.  On a one-apply-if batch whose match/notMatch
`findAll` throws, `verifyApplyIf` installs the scope promise and then
rejects before the caller can collect `onEnd`: `processTxes` propagates
the error, its `finally` has no token for the entry, and scope `"sc"`
remains locked in the scopes map with its promise unresolved. -/
theorem c10_counterexample :
    jsGet (processTxesScopes c10EnvE [c10TxW] c10St0).2.1.scopes "sc" = some 0 ∧
    (processTxesScopes c10EnvE [c10TxW] c10St0).2.1.resolved = [] ∧
    (processTxesScopes c10EnvE [c10TxW] c10St0).1 = Except.error "findAll failed" := by
  have h : processTxesScopes c10EnvE [c10TxW] c10St0 =
      (Except.error "findAll failed",
       { scopes := [("sc", 0)], resolved := [], fresh := 1 }, [],
       some ("sc", 0, "findAll failed")) := by
    simp [processTxesScopes, c10EnvE, c10TxW, c10St0, applyLoop, isApplyIfB,
      runOnEnds, jsSet]
  rw [h]
  exact ⟨rfl, rfl, rfl⟩

/-- C10, amended.  Scope release in `processTxes` holds exactly for the
collected `onEnd` tokens: (1) for every apply-if whose `verifyApplyIf`
returned, the `finally` block deletes its scope's entry and resolves its
promise, on the normal and the throwing path alike; (2) scopes named
neither by a collected token nor by the leaked entry keep their prior
state; (3) when one apply-if's predicate evaluation throws, the entry it
installed — unless a collected token for the same scope name deletes it —
is still in the scopes map after the call, locked forever; (4) the body's
outcome passes through: the evaluation error when one was thrown,
otherwise the remainder's outcome. -/
theorem c10_scopes_released (env : ApplyEnv) (txes : List Tx) (st0 : ScopeState) :
    (∀ t ∈ (processTxesScopes env txes st0).2.2.1,
        jsGet (processTxesScopes env txes st0).2.1.scopes t.1 = none ∧
        t.2 ∈ (processTxesScopes env txes st0).2.1.resolved) ∧
    (∀ s : String, s ∉ (processTxesScopes env txes st0).2.2.1.map Prod.fst →
        (∀ l ∈ (processTxesScopes env txes st0).2.2.2, s ≠ l.1) →
        jsGet (processTxesScopes env txes st0).2.1.scopes s = jsGet st0.scopes s) ∧
    (∀ l ∈ (processTxesScopes env txes st0).2.2.2,
        l.1 ∉ (processTxesScopes env txes st0).2.2.1.map Prod.fst →
        jsGet (processTxesScopes env txes st0).2.1.scopes l.1 = some l.2.1) ∧
    (processTxesScopes env txes st0).1 =
      (match (processTxesScopes env txes st0).2.2.2 with
       | some l => Except.error l.2.2
       | none => env.restOutcome) := by
  unfold processTxesScopes
  dsimp only
  refine ⟨?_, ?_, ?_, rfl⟩
  · intro t ht
    constructor
    · rw [runOnEnds_scopes_get]
      rw [if_pos (List.mem_map_of_mem _ ht)]
    · rw [runOnEnds_resolved]
      exact List.mem_append.mpr (Or.inr (List.mem_map_of_mem _ ht))
  · intro s hs hl
    rw [runOnEnds_scopes_get, if_neg hs]
    exact applyLoop_scopes_outside env _ _ _ hs hl
  · intro l hl hnin
    rw [runOnEnds_scopes_get, if_neg hnin]
    exact applyLoop_leak env _ _ l hl

/-- Concrete environment for the C10 witness: predicates pass and the rest
of the body throws, exercising the `finally` path. -/
def c10EnvW : ApplyEnv :=
  { evalOutcome := fun _ => Except.ok true
    restOutcome := Except.error "tx failed" }

/-- Witness for C10: at a concrete one-apply-if batch whose body throws
after verification returned, the theorem yields that scope `"sc"` is
released. -/
theorem c10_scopes_released_witness :
    jsGet (processTxesScopes c10EnvW [c10TxW] c10St0).2.1.scopes "sc" = none := by
  refine ((c10_scopes_released c10EnvW [c10TxW] c10St0).1 ("sc", 0) ?_).1
  simp [processTxesScopes, c10EnvW, c10TxW, c10St0, applyLoop, isApplyIfB]

/-! ## The storage engine: hierarchy environment and `findAll` -/

/-- `core.class.Collection`. -/
def collectionClass : ClassRef := "core:class:Collection"

/-- `core.class.AttachedDoc`. -/
def attachedDocClass : ClassRef := "core:class:AttachedDoc"

/-- The slice of an attribute declaration the engine reads: the class of
the attribute's type (compared against `core.class.Collection`) and, for
collections, the `of` class of the attached documents. -/
structure AttrType where
  typeClass : ClassRef
  of : ClassRef
deriving Repr, DecidableEq

/-- Modelled from the spec: the class/mixin `Hierarchy` registry (an
in-memory component computed from the bootstrap model, consumed through
ancestor/descendant/domain/attribute queries), together with the pluggable
capabilities the derivation engine consumes: the `ObjectDDParticipant`
related-document collector a class may declare (`none` when the class does
not carry that mixin), and the externally registered trigger set.
`classDomain` is `getClass(c).domain` with `none` standing for the
try/catch-swallowed failure; `hasMixin doc m` is the data-level check that
mixin `m` is present on the document instance. -/
structure Env where
  isDerived : ClassRef → ClassRef → Bool
  getDomain : ClassRef → DomainName
  findDomain : ClassRef → Option DomainName
  getBaseClass : ClassRef → ClassRef
  findAttribute : ClassRef → String → Option AttrType
  getAllAttributes : ClassRef → Option ClassRef → List (String × AttrType)
  getAncestors : ClassRef → List ClassRef
  getDescendants : ClassRef → List ClassRef
  classKindIsMixin : ClassRef → Bool
  classDomain : ClassRef → Option DomainName
  hasMixin : Doc → ClassRef → Bool
  collectDocs : ClassRef → Option (List Doc → Doc → List Doc)
  triggers : List Tx → List Tx

/-- The document queries the derivation engine issues. -/
inductive Query where
  | byId (id : Ref)
  | byAttachedTo (id : Ref)
  | byAttachedToSpace (id : Ref) (space : Ref)
deriving Repr, DecidableEq

/-- Whether a document matches a query. -/
def docMatches (q : Query) (d : Doc) : Bool :=
  match q with
  | .byId id => d.docId = id
  | .byAttachedTo id => d.attachedTo = id
  | .byAttachedToSpace id sp => d.attachedTo = id && d.space = sp

/-- Modelled from the spec: the domain adapter's `findAll` contract —
return the stored documents whose class is (derived from) the requested
class and which match the query, in store order. -/
def findAll (env : Env) (db : List Doc) (cls : ClassRef) (q : Query) : List Doc :=
  db.filter (fun d => env.isDerived d.docClass cls && docMatches q d)

/-! ### `TxFactory` constructors (modelled from the spec: fresh derived
transactions carry `space = core.space.DerivedTx` and the current clock as
`modifiedOn`). -/

/-- `txFactory.createTxRemoveDoc(_class, space, objectId)`. -/
def createTxRemoveDoc (modifiedBy : Ref) (objectClass : ClassRef)
    (objectSpace : Ref) (objectId : Ref) : Tx :=
  Tx.removeDoc
    { modifiedBy := modifiedBy, modifiedOn := nowConst, space := spaceDerivedTx
      objectId := objectId, objectClass := objectClass, objectSpace := objectSpace }

/-- `txFactory.createTxUpdateDoc(_class, space, objectId, operations)`. -/
def createTxUpdateDoc (modifiedBy : Ref) (objectClass : ClassRef)
    (objectSpace : Ref) (objectId : Ref) (operations : DocumentUpdate) : Tx :=
  Tx.updateDoc
    { modifiedBy := modifiedBy, modifiedOn := nowConst, space := spaceDerivedTx
      objectId := objectId, objectClass := objectClass, objectSpace := objectSpace }
    operations

/-- `txFactory.createTxMixin(objectId, objectClass, objectSpace, mixin,
attributes)`. -/
def createTxMixin (modifiedBy : Ref) (objectId : Ref) (objectClass : ClassRef)
    (objectSpace : Ref) (mixin : ClassRef) (attributes : DocumentUpdate) : Tx :=
  Tx.mixinTx
    { modifiedBy := modifiedBy, modifiedOn := nowConst, space := spaceDerivedTx
      objectId := objectId, objectClass := objectClass, objectSpace := objectSpace }
    mixin attributes

/-- `txFactory.createTxCollectionCUD(attachedToClass, attachedTo, space,
collection, tx)` — the owning object's id/class become the collection
transaction's target. -/
def createTxCollectionCUD (modifiedBy : Ref) (attachedToClass : ClassRef)
    (attachedTo : Ref) (space : Ref) (collection : String) (tx : Tx) : Tx :=
  Tx.collectionCUD
    { modifiedBy := modifiedBy, modifiedOn := nowConst, space := spaceDerivedTx
      objectId := attachedTo, objectClass := attachedToClass, objectSpace := space }
    collection tx

/-! ### Cascading removal (`processRemove` and helpers, C1) -/

/-- `deleteObject`: synthesize the remove transaction for one document —
wrapped in a `TxCollectionCUD` when the document is an `AttachedDoc`,
plain otherwise — and record the document in `removedMap`. -/
def deleteObject (env : Env) (object : Doc) (m : RMap) : List Tx × RMap :=
  if env.isDerived object.docClass attachedDocClass then
    let nested := createTxRemoveDoc object.modifiedBy object.docClass object.space object.docId
    ([createTxCollectionCUD object.modifiedBy object.attachedToClass object.attachedTo
        object.space object.collection nested],
     jsSet m object.docId object)
  else
    ([createTxRemoveDoc object.modifiedBy object.docClass object.space object.docId],
     jsSet m object.docId object)

/-- Delete every document of a fetched attached-document list. -/
def deleteAttached (env : Env) : List Doc → RMap → List Tx × RMap
  | [], m => ([], m)
  | doc :: rest, m =>
      let r := deleteObject env doc m
      let rr := deleteAttached env rest r.2
      (r.1 ++ rr.1, rr.2)

/-- The attribute loop of `deleteClassCollections`: for every
`Collection`-typed attribute, fetch all documents attached to the object
and delete each. -/
def deleteCollectionAttrs (env : Env) (db : List Doc) :
    List (String × AttrType) → Ref → RMap → List Tx × RMap
  | [], _, m => ([], m)
  | attr :: rest, objectId, m =>
      if env.isDerived attr.2.typeClass collectionClass then
        let r := deleteAttached env (findAll env db attr.2.of (Query.byAttachedTo objectId)) m
        let rr := deleteCollectionAttrs env db rest objectId r.2
        (r.1 ++ rr.1, rr.2)
      else deleteCollectionAttrs env db rest objectId m

/-- `deleteClassCollections(_class, objectId, …, to?)`: walk
`getAllAttributes(_class, to?)` and delete the attached documents of every
collection-typed attribute. -/
def deleteClassCollections (env : Env) (db : List Doc) (cls : ClassRef)
    (objectId : Ref) (m : RMap) (to? : Option ClassRef) : List Tx × RMap :=
  deleteCollectionAttrs env db (env.getAllAttributes cls to?) objectId m

/-- `getParentClass`: the last ancestor (in `getAncestors` order) whose
declared domain equals the class's own domain; classes whose `getClass`
lookup throws are skipped. -/
def getParentClass (env : Env) (cls : ClassRef) : ClassRef :=
  let baseDomain := env.getDomain cls
  (env.getAncestors cls).foldl
    (fun result ancestor =>
      match env.classDomain ancestor with
      | some d => if d = baseDomain then ancestor else result
      | none => result)
    cls

/-- `getMixins`: the descendants of the object's in-domain parent class
whose classifier kind is MIXIN and which are actually present on the
object instance. -/
def getMixins (env : Env) (cls : ClassRef) (object : Doc) : List ClassRef :=
  (env.getDescendants (getParentClass env cls)).filter
    (fun mx => env.classKindIsMixin mx && env.hasMixin object mx)

/-- The mixin loop of `processRemove`: delete the collections declared by
each applied mixin (attributes of the mixin up to the object's class). -/
def deleteMixinCollections (env : Env) (db : List Doc) :
    List ClassRef → ClassRef → Ref → RMap → List Tx × RMap
  | [], _, _, m => ([], m)
  | mx :: rest, objCls, objectId, m =>
      let r := deleteClassCollections env db mx objectId m (some objCls)
      let rr := deleteMixinCollections env db rest objCls objectId r.2
      (r.1 ++ rr.1, rr.2)

/-- `deleteRelatedDocuments`: when the object's class declares the
`ObjectDDParticipant` capability, delete every document its collector
returns. -/
def deleteRelatedDocuments (env : Env) (db : List Doc) (object : Doc)
    (m : RMap) : List Tx × RMap :=
  match env.collectDocs object.docClass with
  | none => ([], m)
  | some collector => deleteAttached env (collector db object) m

/-- `processRemove`: for every transaction whose extracted form is a
`TxRemoveDoc` and whose target object body is present in `removedMap`,
cascade into the class's collections, the applied mixins' collections and
the class's related-document participants. -/
def processRemove (env : Env) (db : List Doc) : List Tx → RMap → List Tx × RMap
  | [], m => ([], m)
  | tx :: rest, m =>
      match Tx.extractTx tx with
      | .removeDoc rtxd =>
          (match jsGet m rtxd.objectId with
           | none => processRemove env db rest m
           | some object =>
               let r1 := deleteClassCollections env db object.docClass rtxd.objectId m none
               let r2 := deleteMixinCollections env db (getMixins env object.docClass object)
                 object.docClass rtxd.objectId r1.2
               let r3 := deleteRelatedDocuments env db object r2.2
               let rr := processRemove env db rest r3.2
               (r1.1 ++ r2.1 ++ r3.1 ++ rr.1, rr.2))
      | _ => processRemove env db rest m

/-! ### C1: the claim-side description of the removal cascade -/

/-- Insert a list of removed documents into the removed map, in order. -/
def rmInsertAll (docs : List Doc) (m : RMap) : RMap :=
  docs.foldl (fun mm dd => jsSet mm dd.docId dd) m

/-- Claim side (C1): the synthesized remove for one document — wrapped in
a `TxCollectionCUD` when the document being removed is itself an
`AttachedDoc`, and a plain `TxRemoveDoc` otherwise. -/
def c1_wrapRemove (env : Env) (d : Doc) : Tx :=
  if env.isDerived d.docClass attachedDocClass then
    createTxCollectionCUD d.modifiedBy d.attachedToClass d.attachedTo d.space d.collection
      (createTxRemoveDoc d.modifiedBy d.docClass d.space d.docId)
  else
    createTxRemoveDoc d.modifiedBy d.docClass d.space d.docId

/-- Claim side (C1): all attached documents found in every
`Collection`-typed attribute of the given class (restricted to `to?` for
mixins). -/
def c1_attachedOf (env : Env) (db : List Doc) (cls : ClassRef) (objectId : Ref)
    (to? : Option ClassRef) : List Doc :=
  (env.getAllAttributes cls to?).flatMap
    (fun attr =>
      if env.isDerived attr.2.typeClass collectionClass then
        findAll env db attr.2.of (Query.byAttachedTo objectId)
      else [])

/-- Claim side (C1): every attached document of every collection-typed
attribute of the removed object's class, then of every mixin actually
applied on the object instance (discovered by walking the domain's sibling
classes of mixin kind present on the object), then every document returned
by the class's `ObjectDDParticipant` collector. -/
def c1_docsFor (env : Env) (db : List Doc) (object : Doc) (objectId : Ref) : List Doc :=
  c1_attachedOf env db object.docClass objectId none
    ++ (getMixins env object.docClass object).flatMap
        (fun mx => c1_attachedOf env db mx objectId (some object.docClass))
    ++ (match env.collectDocs object.docClass with
        | some collector => collector db object
        | none => [])

/-- Claim side (C1): for every transaction batch, the derivation pass
emits, per `TxRemoveDoc` whose target body is in `removedMap`, the
synthesized removes of all the documents above (each wrapped according to
its own attachedness), and records each cascaded document as removed. -/
def c1_spec (env : Env) (db : List Doc) : List Tx → RMap → List Tx
  | [], _ => []
  | tx :: rest, m =>
      match Tx.extractTx tx with
      | .removeDoc rtxd =>
          (match jsGet m rtxd.objectId with
           | some object =>
               let docs := c1_docsFor env db object rtxd.objectId
               docs.map (c1_wrapRemove env) ++ c1_spec env db rest (rmInsertAll docs m)
           | none => c1_spec env db rest m)
      | _ => c1_spec env db rest m

/-- The removed-map state after the claim-side cascade. -/
def c1_mapAfter (env : Env) (db : List Doc) : List Tx → RMap → RMap
  | [], m => m
  | tx :: rest, m =>
      match Tx.extractTx tx with
      | .removeDoc rtxd =>
          (match jsGet m rtxd.objectId with
           | some object =>
               c1_mapAfter env db rest (rmInsertAll (c1_docsFor env db object rtxd.objectId) m)
           | none => c1_mapAfter env db rest m)
      | _ => c1_mapAfter env db rest m

lemma deleteObject_spec (env : Env) (doc : Doc) (m : RMap) :
    deleteObject env doc m = ([c1_wrapRemove env doc], jsSet m doc.docId doc) := by
  unfold deleteObject c1_wrapRemove
  by_cases h : env.isDerived doc.docClass attachedDocClass = true
  · rw [if_pos h, if_pos h]
  · rw [if_neg h, if_neg h]

lemma deleteAttached_spec (env : Env) :
    ∀ (docs : List Doc) (m : RMap),
      deleteAttached env docs m = (docs.map (c1_wrapRemove env), rmInsertAll docs m) := by
  intro docs
  induction docs with
  | nil => intro m; simp [deleteAttached, rmInsertAll]
  | cons d rest ih =>
      intro m
      simp only [deleteAttached, deleteObject_spec, ih, rmInsertAll, List.map_cons,
        List.foldl_cons, List.singleton_append]

lemma rmInsertAll_append (a b : List Doc) (m : RMap) :
    rmInsertAll (a ++ b) m = rmInsertAll b (rmInsertAll a m) := by
  simp [rmInsertAll, List.foldl_append]

lemma deleteCollectionAttrs_spec (env : Env) (db : List Doc) :
    ∀ (attrs : List (String × AttrType)) (objectId : Ref) (m : RMap),
      deleteCollectionAttrs env db attrs objectId m =
        ((attrs.flatMap (fun attr =>
            if env.isDerived attr.2.typeClass collectionClass then
              findAll env db attr.2.of (Query.byAttachedTo objectId)
            else [])).map (c1_wrapRemove env),
         rmInsertAll (attrs.flatMap (fun attr =>
            if env.isDerived attr.2.typeClass collectionClass then
              findAll env db attr.2.of (Query.byAttachedTo objectId)
            else [])) m) := by
  intro attrs
  induction attrs with
  | nil => intro objectId m; simp [deleteCollectionAttrs, rmInsertAll]
  | cons attr rest ih =>
      intro objectId m
      simp only [deleteCollectionAttrs, List.flatMap_cons]
      by_cases h : env.isDerived attr.2.typeClass collectionClass = true
      · rw [if_pos h, if_pos h]
        simp only [deleteAttached_spec, ih, rmInsertAll_append, List.map_append]
      · rw [if_neg h, if_neg h]
        simp only [ih, List.nil_append, rmInsertAll]

lemma deleteClassCollections_spec (env : Env) (db : List Doc) (cls : ClassRef)
    (objectId : Ref) (m : RMap) (to? : Option ClassRef) :
    deleteClassCollections env db cls objectId m to? =
      ((c1_attachedOf env db cls objectId to?).map (c1_wrapRemove env),
       rmInsertAll (c1_attachedOf env db cls objectId to?) m) := by
  unfold deleteClassCollections c1_attachedOf
  exact deleteCollectionAttrs_spec env db _ objectId m

lemma deleteMixinCollections_spec (env : Env) (db : List Doc) :
    ∀ (mixins : List ClassRef) (objCls : ClassRef) (objectId : Ref) (m : RMap),
      deleteMixinCollections env db mixins objCls objectId m =
        ((mixins.flatMap (fun mx => c1_attachedOf env db mx objectId (some objCls))).map
           (c1_wrapRemove env),
         rmInsertAll (mixins.flatMap (fun mx => c1_attachedOf env db mx objectId (some objCls))) m) := by
  intro mixins
  induction mixins with
  | nil => intro objCls objectId m; simp [deleteMixinCollections, rmInsertAll]
  | cons mx rest ih =>
      intro objCls objectId m
      simp only [deleteMixinCollections, deleteClassCollections_spec, ih,
        List.flatMap_cons, rmInsertAll_append, List.map_append]

lemma deleteRelatedDocuments_spec (env : Env) (db : List Doc) (object : Doc) (m : RMap) :
    deleteRelatedDocuments env db object m =
      ((match env.collectDocs object.docClass with
        | some collector => collector db object
        | none => []).map (c1_wrapRemove env),
       rmInsertAll (match env.collectDocs object.docClass with
        | some collector => collector db object
        | none => []) m) := by
  unfold deleteRelatedDocuments
  cases env.collectDocs object.docClass with
  | none => simp [rmInsertAll]
  | some collector => exact deleteAttached_spec env _ m

lemma processRemove_eq (env : Env) (db : List Doc) :
    ∀ (txes : List Tx) (m : RMap),
      processRemove env db txes m =
        (c1_spec env db txes m, c1_mapAfter env db txes m) := by
  intro txes
  induction txes with
  | nil => intro m; simp [processRemove, c1_spec, c1_mapAfter]
  | cons tx rest ih =>
      intro m
      simp only [processRemove, c1_spec, c1_mapAfter]
      cases hx : Tx.extractTx tx with
      | removeDoc rtxd =>
          cases hm : jsGet m rtxd.objectId with
          | none => simp only [hm]; exact ih m
          | some object =>
              simp only [hm, deleteClassCollections_spec, deleteMixinCollections_spec,
                deleteRelatedDocuments_spec, ih, c1_docsFor, rmInsertAll_append,
                List.map_append, List.append_assoc, Prod.mk.injEq]
      | createDoc d => exact ih m
      | updateDoc d o => exact ih m
      | mixinTx d mx a => exact ih m
      | collectionCUD d c t => exact ih m
      | applyIf d s l => exact ih m

/-- C1.  For every transaction batch, `processRemove` returns exactly the
claim's description: for each `TxRemoveDoc` whose target body is present
in `removedMap`, one synthesized remove per attached document of every
`Collection`-typed attribute of the removed object's class and of every
mixin actually applied on the object instance, plus one per document
returned by the class's `ObjectDDParticipant` collector — each wrapped in
a `TxCollectionCUD` exactly when the document being removed is itself an
`AttachedDoc`, and a plain `TxRemoveDoc` otherwise. -/
theorem c1_processRemove_cascades (env : Env) (db : List Doc)
    (txes : List Tx) (m : RMap) :
    (processRemove env db txes m).1 = c1_spec env db txes m := by
  rw [processRemove_eq]

/-! ### Collection counters (`updateCollection`, `processCollection`, C2) -/

/-- `getCollectionUpdateTx`: build the `$inc` adjustment on the parent —
a `TxMixin` when `getBaseClass(_class)` differs from `_class` (the parent
is addressed through a mixin class), a plain `TxUpdateDoc` otherwise; the
transaction's `modifiedOn` is overridden to the wrapping transaction's. -/
def getCollectionUpdateTx (env : Env) (_id : Ref) (_class : ClassRef)
    (modifiedBy : Ref) (modifiedOn : Int) (attachedTo : Doc)
    (update : DocumentUpdate) : Tx :=
  if env.getBaseClass _class ≠ _class then
    Tx.mixinTx
      { modifiedBy := modifiedBy, modifiedOn := modifiedOn, space := spaceDerivedTx
        objectId := _id, objectClass := attachedTo.docClass, objectSpace := attachedTo.space }
      _class update
  else
    Tx.updateDoc
      { modifiedBy := modifiedBy, modifiedOn := modifiedOn, space := spaceDerivedTx
        objectId := _id, objectClass := _class, objectSpace := attachedTo.space }
      update

/-- `updateCollection`: for a `TxCollectionCUD` wrapping a `TxUpdateDoc`
that changes `attachedTo` to a different parent (and whose object class is
not in the model domain), emit the decrement on the old parent when it is
still found and carries the collection attribute, and the increment on the
new parent when it is found and the attribute exists under the class the
update addresses. -/
def updateCollection (env : Env) (db : List Doc) (tx : Tx) : List Tx :=
  match tx with
  | .collectionCUD d col (.updateDoc _ ops) =>
      if env.getDomain d.objectClass = DOMAIN_MODEL then []
      else
        match ops.attachedTo with
        | none => []
        | some newParent =>
            if newParent = d.objectId then []
            else
              let oldTx :=
                match (findAll env db d.objectClass (Query.byId d.objectId)).head? with
                | none => []
                | some oldDoc =>
                    match env.findAttribute oldDoc.docClass col with
                    | none => []
                    | some _ =>
                        [getCollectionUpdateTx env d.objectId d.objectClass d.modifiedBy
                          d.modifiedOn oldDoc { inc := [(col, -1)] }]
              let newAttachedToClass := ops.attachedToClass.getD d.objectClass
              let newCol := ops.collection.getD col
              let newTx :=
                match (findAll env db newAttachedToClass (Query.byId newParent)).head?,
                    env.findAttribute newAttachedToClass newCol with
                | some newDoc, some _ =>
                    [getCollectionUpdateTx env newDoc.docId newDoc.docClass d.modifiedBy
                      d.modifiedOn newDoc { inc := [(newCol, 1)] }]
                | _, _ => []
              oldTx ++ newTx
  | _ => []

/-- `processCollection`: collection-count adjustments for every
`TxCollectionCUD` in the batch — skip the model domain; a wrapped update
goes through `updateCollection`; a wrapped create/remove whose parent is
not itself scheduled for removal and still exists gets a `+1`/`-1`
increment on the parent's collection attribute. -/
def processCollection (env : Env) (db : List Doc) : List Tx → RMap → List Tx
  | [], _ => []
  | tx :: rest, m =>
      match tx with
      | .collectionCUD d col inner =>
          if env.getDomain d.objectClass = DOMAIN_MODEL then
            processCollection env db rest m
          else
            let isCreateTx := match inner with | .createDoc _ => true | _ => false
            let isDeleteTx := match inner with | .removeDoc _ => true | _ => false
            let isUpdateTx := match inner with | .updateDoc _ _ => true | _ => false
            let part1 := if isUpdateTx then updateCollection env db tx else []
            let part2 :=
              if (isCreateTx || isDeleteTx) && ¬ jsHas m d.objectId then
                match (findAll env db d.objectClass (Query.byId d.objectId)).head? with
                | some attachedTo =>
                    [getCollectionUpdateTx env d.objectId d.objectClass d.modifiedBy
                      d.modifiedOn attachedTo { inc := [(col, if isCreateTx then 1 else -1)] }]
                | none => []
              else []
            part1 ++ part2 ++ processCollection env db rest m
      | _ => processCollection env db rest m

/-! ### Space-move propagation (`processMove`) -/

/-- `processMove`: for every extracted `TxUpdateDoc` that changes `space`,
emit a space update for every document still attached to the object in the
old space through any `Collection`-typed attribute of the object's
class. -/
def processMove (env : Env) (db : List Doc) : List Tx → List Tx
  | [] => []
  | tx :: rest =>
      match Tx.extractTx tx with
      | .updateDoc rtxd ops =>
          (match ops.space with
           | none => processMove env db rest
           | some sp =>
               if sp = rtxd.objectSpace then processMove env db rest
               else
                 (env.getAllAttributes rtxd.objectClass none).flatMap
                   (fun attr =>
                     if env.isDerived attr.2.typeClass collectionClass then
                       (findAll env db attr.2.of
                         (Query.byAttachedToSpace rtxd.objectId rtxd.objectSpace)).map
                         (fun doc =>
                           createTxUpdateDoc tx.data.modifiedBy doc.docClass doc.space
                             doc.docId { space := some sp })
                     else [])
                 ++ processMove env db rest)
      | _ => processMove env db rest

/-- Claim side (C2, amended): the counter adjustment on a parent — a
`TxMixin` whenever the class under which the parent is addressed is a
mixin (its base class differs from it), a plain `TxUpdateDoc` otherwise. -/
def c2_adjustTx (env : Env) (_id : Ref) (_class : ClassRef) (modifiedBy : Ref)
    (modifiedOn : Int) (parentDoc : Doc) (update : DocumentUpdate) : Tx :=
  if env.getBaseClass _class ≠ _class then
    Tx.mixinTx
      { modifiedBy := modifiedBy, modifiedOn := modifiedOn, space := spaceDerivedTx
        objectId := _id, objectClass := parentDoc.docClass, objectSpace := parentDoc.space }
      _class update
  else
    Tx.updateDoc
      { modifiedBy := modifiedBy, modifiedOn := modifiedOn, space := spaceDerivedTx
        objectId := _id, objectClass := _class, objectSpace := parentDoc.space }
      update

/-- Claim side (C2, amended): for a `TxCollectionCUD` wrapping a
`TxUpdateDoc` that re-parents (changes `attachedTo` to a different parent)
outside the model domain, the emitted transactions are: a `$inc`-by-minus-
one adjustment on the old parent's collection attribute — only when the
old parent is still found and its class carries the attribute — followed
by a `$inc`-by-plus-one adjustment on the new parent's collection
attribute — only when the new parent is found under the class the update
addresses and that class carries the (possibly renamed) attribute. -/
def c2_spec (env : Env) (db : List Doc) (tx : Tx) : List Tx :=
  match tx with
  | .collectionCUD d col (.updateDoc _ ops) =>
      if env.getDomain d.objectClass = DOMAIN_MODEL then []
      else
        match ops.attachedTo with
        | none => []
        | some newParent =>
            if newParent = d.objectId then []
            else
              (match (findAll env db d.objectClass (Query.byId d.objectId)).head? with
               | some oldDoc =>
                   if (env.findAttribute oldDoc.docClass col).isSome then
                     [c2_adjustTx env d.objectId d.objectClass d.modifiedBy d.modifiedOn
                       oldDoc { inc := [(col, -1)] }]
                   else []
               | none => []) ++
              (match (findAll env db (ops.attachedToClass.getD d.objectClass)
                  (Query.byId newParent)).head? with
               | some newDoc =>
                   if (env.findAttribute (ops.attachedToClass.getD d.objectClass)
                       (ops.collection.getD col)).isSome then
                     [c2_adjustTx env newDoc.docId newDoc.docClass d.modifiedBy d.modifiedOn
                       newDoc { inc := [(ops.collection.getD col, 1)] }]
                   else []
               | none => [])
  | _ => []

lemma c2_adjustTx_eq_getCollectionUpdateTx (env : Env) (_id : Ref) (_class : ClassRef)
    (modifiedBy : Ref) (modifiedOn : Int) (parentDoc : Doc) (update : DocumentUpdate) :
    getCollectionUpdateTx env _id _class modifiedBy modifiedOn parentDoc update =
      c2_adjustTx env _id _class modifiedBy modifiedOn parentDoc update := rfl

/-- C2, amended.  `updateCollection` emits exactly the conditional pair of
adjustments described by `c2_spec`: decrement only when the old parent is
still found with the attribute, increment only when the new parent is
found with the attribute, each as a `TxMixin` when the addressed class is
a mixin and a plain `TxUpdateDoc` otherwise; everything is skipped for the
model domain, for non-re-parenting updates, and for non-update wrappers. -/
theorem c2_updateCollection_characterization (env : Env) (db : List Doc) (tx : Tx) :
    updateCollection env db tx = c2_spec env db tx := by
  cases tx with
  | collectionCUD d col inner =>
      cases inner with
      | updateDoc di ops =>
          unfold updateCollection c2_spec
          dsimp only
          by_cases hdom : env.getDomain d.objectClass = DOMAIN_MODEL
          · rw [if_pos hdom, if_pos hdom]
          · rw [if_neg hdom, if_neg hdom]
            cases hat : ops.attachedTo with
            | none => rfl
            | some newParent =>
                dsimp only
                by_cases hself : newParent = d.objectId
                · rw [if_pos hself, if_pos hself]
                · rw [if_neg hself, if_neg hself]
                  congr 1
                  · cases (findAll env db d.objectClass (Query.byId d.objectId)).head? with
                    | none => rfl
                    | some oldDoc =>
                        cases hfa : env.findAttribute oldDoc.docClass col with
                        | none => simp [hfa]
                        | some a => simp [hfa, c2_adjustTx_eq_getCollectionUpdateTx]
                  · cases (findAll env db (ops.attachedToClass.getD d.objectClass)
                        (Query.byId newParent)).head? with
                    | none => rfl
                    | some newDoc =>
                        cases hfa : env.findAttribute (ops.attachedToClass.getD d.objectClass)
                            (ops.collection.getD col) with
                        | none => simp [hfa]
                        | some a => simp [hfa, c2_adjustTx_eq_getCollectionUpdateTx]
      | createDoc d2 => rfl
      | removeDoc d2 => rfl
      | mixinTx d2 mx a2 => rfl
      | collectionCUD d2 c2 t2 => rfl
      | applyIf d2 s2 l2 => rfl
  | createDoc d => rfl
  | updateDoc d o => rfl
  | removeDoc d => rfl
  | mixinTx d mx a => rfl
  | applyIf d s l => rfl

/-- Whether a transaction carries a `$inc` entry of the given value on the
given collection attribute. -/
def hasInc (t : Tx) (col : String) (v : Int) : Bool :=
  match t with
  | .updateDoc _ ops => ops.inc.contains (col, v)
  | .mixinTx _ _ ops => ops.inc.contains (col, v)
  | _ => false

/-- Environment for the C2 counterexample: one plain class `"C"` in
domain `"d0"` carrying a collection attribute `"items"`, no mixins. -/
def envC2 : Env :=
  { isDerived := fun a b => a == b
    getDomain := fun _ => "d0"
    findDomain := fun _ => some "d0"
    getBaseClass := fun c => c
    findAttribute := fun c n =>
      if c = "C" ∧ n = "items" then some { typeClass := collectionClass, of := "C" } else none
    getAllAttributes := fun _ _ => [("items", { typeClass := collectionClass, of := "C" })]
    getAncestors := fun c => [c]
    getDescendants := fun c => [c]
    classKindIsMixin := fun _ => false
    classDomain := fun _ => some "d0"
    hasMixin := fun _ _ => false
    collectDocs := fun _ => none
    triggers := fun _ => [] }

/-- Store for the C2 counterexample: the new parent `"B"` exists, the old
parent `"A"` has already been deleted. -/
def dbC2 : List Doc :=
  [{ docId := "B", docClass := "C", space := "sp", modifiedBy := "u" }]

/-- A `TxCollectionCUD` wrapping an update that re-parents an attached
document from the (deleted) old parent `"A"` to `"B"`. -/
def txC2 : Tx :=
  Tx.collectionCUD
    { modifiedBy := "u", modifiedOn := 5, space := spaceTx
      objectId := "A", objectClass := "C", objectSpace := "sp" }
    "items"
    (Tx.updateDoc
      { modifiedBy := "u", modifiedOn := 5, space := spaceTx
        objectId := "X", objectClass := "C", objectSpace := "sp" }
      { attachedTo := some "B" })

/-- C2, counterexample.  The claim says such a re-parenting always emits
both the minus-one and the plus-one adjustment.  On `txC2` — an eligible
re-parenting (non-model domain, `attachedTo` changed to a different
parent), as witnessed by the emitted plus-one on the new parent — no
minus-one transaction is emitted at all, because the old parent `"A"` is
no longer findable: the code silently skips the decrement. -/
theorem c2_counterexample :
    (∃ t ∈ updateCollection envC2 dbC2 txC2, hasInc t "items" 1 = true) ∧
    (∀ t ∈ updateCollection envC2 dbC2 txC2, hasInc t "items" (-1) = false) := by
  decide

/-! ### The transaction router (`routeTx`, C7) -/

/-- Modelled from the spec: one domain adapter's `tx` application to its
document set — removes delete by id, updates apply the `space` change
(attribute-level effects are outside the verified slice), creates insert
the new document, mixin updates leave the set unchanged; a nested
collection CUD applies its inner transaction. -/
def applyTxDb : Tx → List Doc → List Doc
  | .removeDoc d, db => db.filter (fun doc => doc.docId ≠ d.objectId)
  | .updateDoc d ops, db =>
      db.map (fun doc =>
        if doc.docId = d.objectId then
          match ops.space with
          | some sp => { doc with space := sp }
          | none => doc
        else doc)
  | .createDoc d, db =>
      db ++ [{ docId := d.objectId, docClass := d.objectClass
               space := d.objectSpace, modifiedBy := d.modifiedBy }]
  | .mixinTx _ _ _, db => db
  | .collectionCUD _ _ inner, db => applyTxDb inner db
  | .applyIf _ _ _, db => db

/-- The mutable state the router acts on: the document store behind the
adapters and the removed-document map. -/
structure ServerState where
  db : List Doc
  removedMap : RMap
deriving Repr, DecidableEq

/-- `processPart`: apply one same-domain run — load the bodies of the
documents about to be removed into `removedMap` (they are no longer
fetchable afterwards), then apply the whole run in one adapter call. -/
def processPart (s : ServerState) (part : List Tx) : ServerState :=
  if part.isEmpty then s
  else
    let toDelete := (part.filter Tx.isRemoveDoc).map (fun t => t.data.objectId)
    let toDeleteDocs := s.db.filter (fun doc => toDelete.contains doc.docId)
    { db := part.foldl (fun db t => applyTxDb t db) s.db
      removedMap := toDeleteDocs.foldl (fun m doc => jsSet m doc.docId doc) s.removedMap }

/-- The result of routing a batch: the adapter calls made (domain and the
extracted run), the skipped non-CUD transactions, and the state. -/
structure RouteResult where
  calls : List (DomainName × List Tx)
  skipped : List Tx
  state : ServerState
deriving Repr, DecidableEq

/-- The loop of `routeTx`: extract each transaction, skip (with an error
log) those whose extracted class is not derived from `TxCUD`, and buffer
contiguous same-domain extracted transactions, flushing the buffer through
`processPart` whenever the domain changes and once at the end. -/
def routeTxLoop :
    Env → List Tx → List Tx → Option DomainName → ServerState →
      List (DomainName × List Tx) → List Tx → RouteResult
  | _, [], part, lastDomain, s, calls, skipped =>
      if part.isEmpty then { calls := calls, skipped := skipped, state := s }
      else
        { calls := calls ++ [(lastDomain.getD "", part)]
          skipped := skipped
          state := processPart s part }
  | env, tx :: rest, part, lastDomain, s, calls, skipped =>
      let txCUD := Tx.extractTx tx
      if ¬ txCUD.isCUD then
        routeTxLoop env rest part lastDomain s calls (skipped ++ [tx])
      else
        let domain := env.getDomain txCUD.data.objectClass
        if part.isEmpty then
          routeTxLoop env rest (part ++ [txCUD]) (some domain) s calls skipped
        else
          if lastDomain ≠ some domain then
            routeTxLoop env rest [txCUD] (some domain) (processPart s part)
              (calls ++ [(lastDomain.getD "", part)]) skipped
          else
            routeTxLoop env rest (part ++ [txCUD]) (some domain) s calls skipped

/-- `routeTx(ctx, removedDocs, ...txes)`. -/
def routeTx (env : Env) (s : ServerState) (txes : List Tx) : RouteResult :=
  routeTxLoop env txes [] none s [] []

/-- Claim side (C7): the extracted CUD transactions of the batch, paired
with their target domain, in batch order. -/
def routedPairs (env : Env) (txes : List Tx) : List (DomainName × Tx) :=
  ((txes.map Tx.extractTx).filter Tx.isCUD).map
    (fun t => (env.getDomain t.data.objectClass, t))

/-- Claim side (C7): the partition of a domain-tagged sequence into
maximal contiguous runs sharing the same domain — a run boundary falls
exactly where the next transaction's domain differs. -/
def domainRuns : List (DomainName × Tx) → List (DomainName × List Tx)
  | [] => []
  | (d, t) :: rest =>
      match domainRuns rest with
      | [] => [(d, [t])]
      | (d', ts) :: more =>
          if d' = d then (d, t :: ts) :: more else (d, [t]) :: (d', ts) :: more

/-- Merging a pending run into a run partition: extend the first run when
it has the same domain, otherwise put the pending run in front. -/
def prependRun (d : DomainName) (part : List Tx) :
    List (DomainName × List Tx) → List (DomainName × List Tx)
  | [] => [(d, part)]
  | (d', ts) :: more =>
      if d' = d then (d, part ++ ts) :: more else (d, part) :: (d', ts) :: more

lemma domainRuns_cons (d : DomainName) (t : Tx) (pr : List (DomainName × Tx)) :
    domainRuns ((d, t) :: pr) = prependRun d [t] (domainRuns pr) := by
  cases h : domainRuns pr with
  | nil => simp [domainRuns, h, prependRun]
  | cons r more =>
      obtain ⟨d', ts⟩ := r
      by_cases h2 : d' = d
      · simp [domainRuns, h, prependRun, h2]
      · simp [domainRuns, h, prependRun, h2]

lemma prependRun_same (d : DomainName) (part : List Tx) (t : Tx)
    (R : List (DomainName × List Tx)) :
    prependRun d part (prependRun d [t] R) = prependRun d (part ++ [t]) R := by
  cases R with
  | nil => simp [prependRun]
  | cons r more =>
      obtain ⟨d', ts⟩ := r
      by_cases h : d' = d
      · simp [prependRun, h]
      · simp [prependRun, h]

lemma prependRun_ne (d dom : DomainName) (part : List Tx) (t : Tx)
    (R : List (DomainName × List Tx)) (h : dom ≠ d) :
    prependRun d part (prependRun dom [t] R) = (d, part) :: prependRun dom [t] R := by
  cases R with
  | nil => simp [prependRun, h]
  | cons r more =>
      obtain ⟨d', ts⟩ := r
      by_cases h2 : d' = dom
      · simp [prependRun, h2, h]
      · simp [prependRun, h2, h]

lemma routedPairs_cons (env : Env) (tx : Tx) (rest : List Tx) :
    routedPairs env (tx :: rest) =
      if (Tx.extractTx tx).isCUD then
        (env.getDomain (Tx.extractTx tx).data.objectClass, Tx.extractTx tx) :: routedPairs env rest
      else routedPairs env rest := by
  unfold routedPairs
  rw [List.map_cons, List.filter_cons]
  by_cases h : (Tx.extractTx tx).isCUD = true
  · rw [if_pos h, if_pos h, List.map_cons]
  · rw [if_neg h, if_neg h]

lemma routeTxLoop_calls_part (env : Env) :
    ∀ (txes part : List Tx) (d : DomainName) (s : ServerState)
      (calls : List (DomainName × List Tx)) (skipped : List Tx),
      part ≠ [] →
      (routeTxLoop env txes part (some d) s calls skipped).calls =
        calls ++ prependRun d part (domainRuns (routedPairs env txes)) := by
  intro txes
  induction txes with
  | nil =>
      intro part d s calls skipped hpart
      unfold routeTxLoop
      rw [if_neg (by simpa using hpart)]
      simp [routedPairs, domainRuns, prependRun]
  | cons tx rest ih =>
      intro part d s calls skipped hpart
      unfold routeTxLoop
      dsimp only
      rw [routedPairs_cons]
      by_cases hcud : (Tx.extractTx tx).isCUD = true
      · rw [if_neg (by simp [hcud]), if_pos hcud]
        rw [if_neg (by simpa using hpart)]
        rw [domainRuns_cons]
        by_cases hdom : (some d : Option DomainName) ≠
            some (env.getDomain (Tx.extractTx tx).data.objectClass)
        · rw [if_pos hdom]
          rw [ih [Tx.extractTx tx] _ _ _ _ (by simp)]
          rw [prependRun_ne _ _ _ _ _ (by
            intro he
            exact hdom (by rw [he]))]
          simp
        · rw [if_neg hdom]
          push_neg at hdom
          injection hdom with hdom
          rw [ih (part ++ [Tx.extractTx tx]) _ _ _ _ (by simp)]
          rw [hdom, prependRun_same]
      · rw [if_pos (by simp [hcud]), if_neg (by simp [hcud])]
        exact ih part d s calls _ hpart

lemma routeTxLoop_calls_nil (env : Env) :
    ∀ (txes : List Tx) (s : ServerState)
      (calls : List (DomainName × List Tx)) (skipped : List Tx),
      (routeTxLoop env txes [] none s calls skipped).calls =
        calls ++ domainRuns (routedPairs env txes) := by
  intro txes
  induction txes with
  | nil =>
      intro s calls skipped
      unfold routeTxLoop
      simp [routedPairs, domainRuns]
  | cons tx rest ih =>
      intro s calls skipped
      unfold routeTxLoop
      dsimp only
      rw [routedPairs_cons]
      by_cases hcud : (Tx.extractTx tx).isCUD = true
      · rw [if_neg (by simp [hcud]), if_pos hcud]
        rw [if_pos (show ([] : List Tx).isEmpty = true from rfl)]
        rw [show ([] : List Tx) ++ [Tx.extractTx tx] = [Tx.extractTx tx] from rfl]
        rw [routeTxLoop_calls_part env rest [Tx.extractTx tx] _ _ _ _ (by simp)]
        rw [domainRuns_cons]
      · rw [if_pos (by simp [hcud]), if_neg (by simp [hcud])]
        exact ih s calls _

lemma routeTxLoop_skipped (env : Env) :
    ∀ (txes part : List Tx) (ld : Option DomainName) (s : ServerState)
      (calls : List (DomainName × List Tx)) (skipped : List Tx),
      (routeTxLoop env txes part ld s calls skipped).skipped =
        skipped ++ txes.filter (fun tx => ¬ (Tx.extractTx tx).isCUD) := by
  intro txes
  induction txes with
  | nil =>
      intro part ld s calls skipped
      unfold routeTxLoop
      by_cases h : part.isEmpty
      · rw [if_pos h]; simp
      · rw [if_neg h]; simp
  | cons tx rest ih =>
      intro part ld s calls skipped
      by_cases hcud : (Tx.extractTx tx).isCUD = true
      · have hfil : List.filter (fun tx => ¬ (Tx.extractTx tx).isCUD) (tx :: rest)
            = List.filter (fun tx => ¬ (Tx.extractTx tx).isCUD) rest := by
          simp [List.filter_cons, hcud]
        rw [hfil]
        unfold routeTxLoop
        dsimp only
        rw [if_neg (by simp [hcud])]
        split
        · exact ih _ _ _ _ _
        · split
          · exact ih _ _ _ _ _
          · exact ih _ _ _ _ _
      · have hfil : List.filter (fun tx => ¬ (Tx.extractTx tx).isCUD) (tx :: rest)
            = tx :: List.filter (fun tx => ¬ (Tx.extractTx tx).isCUD) rest := by
          simp [List.filter_cons, hcud]
        rw [hfil]
        unfold routeTxLoop
        dsimp only
        rw [if_pos (by simp [hcud])]
        rw [ih part ld s calls (skipped ++ [tx])]
        simp

lemma prependRun_flatten (d : DomainName) (part : List Tx)
    (R : List (DomainName × List Tx)) :
    (prependRun d part R).flatMap Prod.snd = part ++ R.flatMap Prod.snd := by
  cases R with
  | nil => simp [prependRun]
  | cons r more =>
      obtain ⟨d', ts⟩ := r
      by_cases h : d' = d
      · simp [prependRun, h]
      · simp [prependRun, h]

lemma domainRuns_flatten :
    ∀ pr : List (DomainName × Tx), (domainRuns pr).flatMap Prod.snd = pr.map Prod.snd := by
  intro pr
  induction pr with
  | nil => simp [domainRuns]
  | cons p rest ih =>
      obtain ⟨d, t⟩ := p
      rw [domainRuns_cons, prependRun_flatten, ih]
      simp

lemma prependRun_chain (d : DomainName) (part : List Tx)
    (R : List (DomainName × List Tx))
    (h : List.Chain' (fun a b => a.1 ≠ b.1) R) :
    List.Chain' (fun a b => a.1 ≠ b.1) (prependRun d part R) := by
  cases R with
  | nil => simp [prependRun]
  | cons r more =>
      obtain ⟨d', ts⟩ := r
      by_cases h2 : d' = d
      · subst h2
        have hpp : prependRun d' part ((d', ts) :: more) = (d', part ++ ts) :: more := by
          simp [prependRun]
        rw [hpp, List.chain'_cons']
        rw [List.chain'_cons'] at h
        exact ⟨h.1, h.2⟩
      · simp only [prependRun, if_neg h2]
        rw [List.chain'_cons']
        refine ⟨?_, h⟩
        intro b hb
        simp at hb
        rw [← hb]
        exact fun he => h2 he.symm

lemma domainRuns_chain :
    ∀ pr : List (DomainName × Tx),
      List.Chain' (fun a b => a.1 ≠ b.1) (domainRuns pr) := by
  intro pr
  induction pr with
  | nil => simp [domainRuns]
  | cons p rest ih =>
      obtain ⟨d, t⟩ := p
      rw [domainRuns_cons]
      exact prependRun_chain d [t] _ ih

/-- A run partition is well formed for `P` when every run is nonempty and
every transaction in a run satisfies `P` at the run's domain. -/
def runsProp (P : DomainName → Tx → Prop) (R : List (DomainName × List Tx)) : Prop :=
  ∀ r ∈ R, r.2 ≠ [] ∧ ∀ t ∈ r.2, P r.1 t

lemma prependRun_props (P : DomainName → Tx → Prop) (d : DomainName) (part : List Tx)
    (R : List (DomainName × List Tx)) (hpart : part ≠ [])
    (hP : ∀ t ∈ part, P d t) (hR : runsProp P R) :
    runsProp P (prependRun d part R) := by
  cases R with
  | nil =>
      intro r hr
      simp [prependRun] at hr
      subst hr
      exact ⟨hpart, hP⟩
  | cons r0 more =>
      obtain ⟨d', ts⟩ := r0
      by_cases h : d' = d
      · subst h
        simp only [prependRun, if_pos rfl]
        intro r hr
        rcases List.mem_cons.mp hr with hr | hr
        · subst hr
          refine ⟨by simp [hpart], ?_⟩
          intro t ht
          rcases List.mem_append.mp ht with ht | ht
          · exact hP t ht
          · exact (hR (d', ts) (List.mem_cons_self _ _)).2 t ht
        · exact hR r (List.mem_cons_of_mem _ hr)
      · simp only [prependRun, if_neg h]
        intro r hr
        rcases List.mem_cons.mp hr with hr | hr
        · subst hr
          exact ⟨hpart, hP⟩
        · exact hR r hr

lemma domainRuns_props (P : DomainName → Tx → Prop) :
    ∀ pr : List (DomainName × Tx), (∀ p ∈ pr, P p.1 p.2) →
      runsProp P (domainRuns pr) := by
  intro pr
  induction pr with
  | nil => intro _ r hr; simp [domainRuns] at hr
  | cons p rest ih =>
      obtain ⟨d, t⟩ := p
      intro hall
      rw [domainRuns_cons]
      refine prependRun_props P d [t] _ (by simp) ?_ (ih ?_)
      · intro t2 ht2
        simp at ht2
        rw [ht2]
        exact hall (d, t) (List.mem_cons_self _ _)
      · intro q hq
        exact hall q (List.mem_cons_of_mem _ hq)

/-- C7.  `routeTx` partitions the batch into exactly the maximal
contiguous same-domain runs of its extracted CUD transactions: the adapter
calls are the claim-side run partition; skipped transactions are precisely
those whose extracted class is not CUD-derived (logged, batch continues);
concatenating the runs in order reproduces the extracted batch order;
adjacent runs have different domains; and every run is nonempty with every
transaction targeting the run's domain. -/
theorem c7_routeTx_domain_runs (env : Env) (s : ServerState) (txes : List Tx) :
    (routeTx env s txes).calls = domainRuns (routedPairs env txes) ∧
    (routeTx env s txes).skipped = txes.filter (fun tx => ¬ (Tx.extractTx tx).isCUD) ∧
    ((routeTx env s txes).calls.flatMap Prod.snd) = (txes.map Tx.extractTx).filter Tx.isCUD ∧
    List.Chain' (fun a b => a.1 ≠ b.1) (routeTx env s txes).calls ∧
    (∀ c ∈ (routeTx env s txes).calls, c.2 ≠ [] ∧
        ∀ t ∈ c.2, env.getDomain t.data.objectClass = c.1) := by
  have hcalls : (routeTx env s txes).calls = domainRuns (routedPairs env txes) := by
    unfold routeTx
    rw [routeTxLoop_calls_nil]
    simp
  refine ⟨hcalls, ?_, ?_, ?_, ?_⟩
  · unfold routeTx
    rw [routeTxLoop_skipped]
    simp
  · rw [hcalls, domainRuns_flatten]
    unfold routedPairs
    rw [List.map_map]
    have : (Prod.snd ∘ fun t : Tx => (env.getDomain t.data.objectClass, t)) = id := by
      funext t
      rfl
    rw [this, List.map_id]
  · rw [hcalls]
    exact domainRuns_chain _
  · rw [hcalls]
    have hp : ∀ p ∈ routedPairs env txes,
        env.getDomain p.2.data.objectClass = p.1 := by
      intro p hmem
      simp only [routedPairs, List.mem_map] at hmem
      obtain ⟨t, _, rfl⟩ := hmem
      rfl
    exact domainRuns_props (fun dn t => env.getDomain t.data.objectClass = dn) _ hp

/-! ### The recursive derivation loop (`processDerived` / `processDerivedTxes`, C3) -/

/-- Stable insertion into a `modifiedOn`-sorted list: the element goes in
front of the first element not strictly older, so earlier batch elements
stay in front of equal timestamps. -/
def insertTx (x : Tx) : List Tx → List Tx
  | [] => [x]
  | y :: ys => if y.modifiedOn < x.modifiedOn then y :: insertTx x ys else x :: y :: ys

/-- The stable `derived.sort((a, b) => a.modifiedOn - b.modifiedOn)`. -/
def sortTx : List Tx → List Tx
  | [] => []
  | x :: xs => insertTx x (sortTx xs)

lemma mem_insertTx (t x : Tx) : ∀ l : List Tx, t ∈ insertTx x l ↔ t = x ∨ t ∈ l := by
  intro l
  induction l with
  | nil => simp [insertTx]
  | cons y ys ih =>
      unfold insertTx
      by_cases h : y.modifiedOn < x.modifiedOn
      · rw [if_pos h]
        simp [ih]
        tauto
      · rw [if_neg h]
        simp

lemma mem_sortTx (t : Tx) : ∀ l : List Tx, t ∈ sortTx l ↔ t ∈ l := by
  intro l
  induction l with
  | nil => simp [sortTx]
  | cons x xs ih =>
      unfold sortTx
      rw [mem_insertTx]
      simp [ih]

mutual

/-- `processDerived`: compute the removal cascade, the collection
counters, the space moves and the trigger outputs of the batch, union
them, and feed them to `processDerivedTxes`.  The fuel argument bounds the
number of recursion levels: the real code recurses without a cap, so fuel
exhaustion (`none`) models non-termination of the source recursion. -/
def processDerivedF : Nat → Env → ServerState → List Tx → Option (List Tx × ServerState)
  | fuel, env, s, txes =>
      let r := processRemove env s.db txes s.removedMap
      let collections := processCollection env s.db txes r.2
      let moves := processMove env s.db txes
      let trig := env.triggers txes
      processDerivedTxesF fuel env { db := s.db, removedMap := r.2 }
        (r.1 ++ collections ++ moves ++ trig)
  termination_by fuel _ _ _ => 2 * fuel + 1

/-- `processDerivedTxes`: sort the derived transactions by `modifiedOn`,
route them into storage, and — when the pass produced any transaction —
recurse through `processDerived` on them, returning the derived
transactions together with everything the recursion produced. -/
def processDerivedTxesF : Nat → Env → ServerState → List Tx → Option (List Tx × ServerState)
  | fuel, env, s, derived =>
      let d := sortTx derived
      let s1 := (routeTx env s d).state
      if d.isEmpty then some ([], s1)
      else
        match fuel with
        | 0 => none
        | Nat.succ n => (processDerivedF n env s1 d).map (fun p => (d ++ p.1, p.2))
  termination_by fuel _ _ _ => 2 * fuel

end

/-- Termination of the derivation loop on a given input: some recursion
depth suffices (the fuelled loop returns a value instead of running out). -/
def derivationTerminates (env : Env) (s : ServerState) (txes : List Tx) : Prop :=
  ∃ n, (processDerivedF n env s txes).isSome

/-! #### C3 counterexample: two mutually attached documents with opposing
space moves make the loop derive forever. -/

/-- Environment for the cycle: a single class `"C"` with one collection
attribute `"items"` of `"C"`, no mixins, no collectors, no triggers. -/
def envCyc : Env := envC2

/-- Document `X`, attached to `Y` (after the client batch moved it to
space `"B"`). -/
def cycX : Doc :=
  { docId := "X", docClass := "C", space := "B", modifiedBy := "u"
    attachedTo := "Y", attachedToClass := "C", collection := "items" }

/-- Document `Y`, attached to `X` (after the client batch moved it to
space `"A"`). -/
def cycY : Doc :=
  { docId := "Y", docClass := "C", space := "A", modifiedBy := "u"
    attachedTo := "X", attachedToClass := "C", collection := "items" }

/-- State after routing the client batch: `X` in `"B"`, `Y` in `"A"`. -/
def cycS0 : ServerState := { db := [cycX, cycY], removedMap := [] }

/-- State after one derived pass: both documents moved once more. -/
def cycS1 : ServerState :=
  { db := [{ cycX with space := "A" }, { cycY with space := "B" }], removedMap := [] }

/-- The client batch: move `X` from `"A"` to `"B"` and `Y` from `"B"` to
`"A"` (their spaces before routing). -/
def cycTxes : List Tx :=
  [Tx.updateDoc
     { modifiedBy := "u", modifiedOn := 1, space := spaceTx
       objectId := "X", objectClass := "C", objectSpace := "A" }
     { space := some "B" },
   Tx.updateDoc
     { modifiedBy := "u", modifiedOn := 1, space := spaceTx
       objectId := "Y", objectClass := "C", objectSpace := "B" }
     { space := some "A" }]

/-- First derived generation: move `Y` to `"B"` and `X` to `"A"`. -/
def cycD1 : List Tx :=
  [Tx.updateDoc
     { modifiedBy := "u", modifiedOn := 0, space := spaceDerivedTx
       objectId := "Y", objectClass := "C", objectSpace := "A" }
     { space := some "B" },
   Tx.updateDoc
     { modifiedBy := "u", modifiedOn := 0, space := spaceDerivedTx
       objectId := "X", objectClass := "C", objectSpace := "B" }
     { space := some "A" }]

/-- Second derived generation: move `X` back to `"B"` and `Y` back to
`"A"`. -/
def cycD2 : List Tx :=
  [Tx.updateDoc
     { modifiedBy := "u", modifiedOn := 0, space := spaceDerivedTx
       objectId := "X", objectClass := "C", objectSpace := "A" }
     { space := some "B" },
   Tx.updateDoc
     { modifiedBy := "u", modifiedOn := 0, space := spaceDerivedTx
       objectId := "Y", objectClass := "C", objectSpace := "B" }
     { space := some "A" }]

lemma cyc_lemA (n : Nat) :
    processDerivedTxesF (n + 1) envCyc cycS0 cycD1 =
      (processDerivedF n envCyc cycS1 cycD1).map (fun p => (cycD1 ++ p.1, p.2)) := by
  simp only [processDerivedTxesF]
  rw [show sortTx cycD1 = cycD1 from rfl]
  rw [show (routeTx envCyc cycS0 cycD1).state = cycS1 from rfl]
  rw [if_neg (by simp [show cycD1.isEmpty = false from rfl])]

lemma cyc_lemB (n : Nat) :
    processDerivedF n envCyc cycS1 cycD1 = processDerivedTxesF n envCyc cycS1 cycD2 := by
  simp only [processDerivedF]
  rw [show processRemove envCyc cycS1.db cycD1 cycS1.removedMap = (([] : List Tx), ([] : RMap)) from rfl]
  rw [show processCollection envCyc cycS1.db cycD1 ([] : RMap) = [] from rfl]
  rw [show processMove envCyc cycS1.db cycD1 = cycD2 from rfl]
  rw [show envCyc.triggers cycD1 = [] from rfl]
  simp only [List.append_nil, List.nil_append]
  rfl

lemma cyc_lemC (n : Nat) :
    processDerivedTxesF (n + 1) envCyc cycS1 cycD2 =
      (processDerivedF n envCyc cycS0 cycD2).map (fun p => (cycD2 ++ p.1, p.2)) := by
  simp only [processDerivedTxesF]
  rw [show sortTx cycD2 = cycD2 from rfl]
  rw [show (routeTx envCyc cycS1 cycD2).state = cycS0 from rfl]
  rw [if_neg (by simp [show cycD2.isEmpty = false from rfl])]

lemma cyc_lemD (n : Nat) :
    processDerivedF n envCyc cycS0 cycD2 = processDerivedTxesF n envCyc cycS0 cycD1 := by
  simp only [processDerivedF]
  rw [show processRemove envCyc cycS0.db cycD2 cycS0.removedMap = (([] : List Tx), ([] : RMap)) from rfl]
  rw [show processCollection envCyc cycS0.db cycD2 ([] : RMap) = [] from rfl]
  rw [show processMove envCyc cycS0.db cycD2 = cycD1 from rfl]
  rw [show envCyc.triggers cycD2 = [] from rfl]
  simp only [List.append_nil, List.nil_append]
  rfl

lemma cyc_base0 : processDerivedTxesF 0 envCyc cycS0 cycD1 = none := by
  simp only [processDerivedTxesF]
  rw [show sortTx cycD1 = cycD1 from rfl]
  rw [if_neg (by simp [show cycD1.isEmpty = false from rfl])]

lemma cyc_base1 : processDerivedTxesF 0 envCyc cycS1 cycD2 = none := by
  simp only [processDerivedTxesF]
  rw [show sortTx cycD2 = cycD2 from rfl]
  rw [if_neg (by simp [show cycD2.isEmpty = false from rfl])]

lemma cyc_none : ∀ k, processDerivedTxesF k envCyc cycS0 cycD1 = none := by
  intro k
  induction k using Nat.strong_induction_on with
  | _ k ih =>
      match k with
      | 0 => exact cyc_base0
      | 1 =>
          rw [cyc_lemA, cyc_lemB, cyc_base1]
          rfl
      | Nat.succ (Nat.succ m) =>
          rw [cyc_lemA, cyc_lemB, cyc_lemC, cyc_lemD]
          rw [ih m (by omega)]
          rfl

/-- C3, counterexample.  The claim asserts the derivation loop terminates
for every finite object graph without removal cycles.  Take two documents
`X` and `Y`, each attached to the other through the collection attribute
`"items"`, and a client batch that moves `X` from space `"A"` to `"B"`
while moving `Y` from `"B"` to `"A"` — a finite graph with no removals at
all.  Space-move propagation then derives an opposing move pair at every
pass forever (each pass finds the other document back in the old space),
so no recursion depth suffices: the loop never reaches a pass that yields
zero new transactions. -/
theorem c3_counterexample : ¬ derivationTerminates envCyc cycS0 cycTxes := by
  intro h
  obtain ⟨n, hn⟩ := h
  have he : processDerivedF n envCyc cycS0 cycTxes =
      processDerivedTxesF n envCyc cycS0 cycD1 := by
    simp only [processDerivedF]
    rw [show processRemove envCyc cycS0.db cycTxes cycS0.removedMap
        = (([] : List Tx), ([] : RMap)) from rfl]
    rw [show processCollection envCyc cycS0.db cycTxes ([] : RMap) = [] from rfl]
    rw [show processMove envCyc cycS0.db cycTxes = cycD1 from rfl]
    rw [show envCyc.triggers cycTxes = [] from rfl]
    simp only [List.append_nil, List.nil_append]
    rfl
  rw [he, cyc_none n] at hn
  simp at hn

/-! #### C3 amended: the removal cascade terminates -/

/-- The id removed by a remove-shaped transaction (a plain `TxRemoveDoc`
or a `TxCollectionCUD` wrapping one); `none` otherwise. -/
def removeTargetId : Tx → Option Ref
  | .removeDoc d => some d.objectId
  | .collectionCUD _ _ (.removeDoc d) => some d.objectId
  | _ => none

/-- Remove-shaped transactions. -/
def removeShapedB (t : Tx) : Bool := (removeTargetId t).isSome

/-- Derived transactions that cannot feed any further derivation: plain
updates without a `space` change, and mixin updates (exactly the shape of
collection-counter adjustments). -/
def inertTxB : Tx → Bool
  | .updateDoc _ ops => ops.space.isNone
  | .mixinTx _ _ _ => true
  | _ => false

/-- Some document with the given id is live in the store. -/
def idLive (db : List Doc) (id : Ref) : Prop :=
  ∃ doc ∈ db, doc.docId = id

/-- A derived transaction is good for the current store when it is a
remove of a still-live document or inert. -/
def goodTx (db : List Doc) (t : Tx) : Prop :=
  (∃ id, removeTargetId t = some id ∧ idLive db id) ∨ inertTxB t = true

/-- The extracted CUD list a routed batch applies to the store. -/
def exTxes (d : List Tx) : List Tx :=
  (d.map Tx.extractTx).filter Tx.isCUD

/-- Extracted shape of a good transaction: a plain remove of a live id, or
an inert update. -/
def goodExtract (db : List Doc) (u : Tx) : Prop :=
  (∃ dd : TxData, u = Tx.removeDoc dd ∧ idLive db dd.objectId) ∨ inertTxB u = true

lemma removeTarget_extract (t : Tx) (id : Ref) (h : removeTargetId t = some id) :
    ∃ dd : TxData, Tx.extractTx t = Tx.removeDoc dd ∧ dd.objectId = id := by
  match t with
  | .removeDoc d =>
      refine ⟨d, rfl, ?_⟩
      simpa [removeTargetId] using h
  | .collectionCUD d c inner =>
      match inner with
      | .removeDoc dd =>
          refine ⟨dd, rfl, ?_⟩
          simpa [removeTargetId] using h
      | .createDoc dd => simp [removeTargetId] at h
      | .updateDoc dd o => simp [removeTargetId] at h
      | .mixinTx dd mx a => simp [removeTargetId] at h
      | .collectionCUD dd c2 t2 => simp [removeTargetId] at h
      | .applyIf dd s2 l2 => simp [removeTargetId] at h
  | .createDoc d => simp [removeTargetId] at h
  | .updateDoc d o => simp [removeTargetId] at h
  | .mixinTx d mx a => simp [removeTargetId] at h
  | .applyIf d s2 l2 => simp [removeTargetId] at h

lemma inert_extract (t : Tx) (h : inertTxB t = true) :
    Tx.extractTx t = t ∧ t.isCUD = true := by
  cases t <;> simp_all [inertTxB, Tx.extractTx, Tx.isCUD]

lemma applyTxDb_inert (t : Tx) (db : List Doc) (h : inertTxB t = true) :
    applyTxDb t db = db := by
  cases t with
  | updateDoc d ops =>
      have hsp : ops.space = none := by
        simpa [inertTxB, Option.isNone_iff_eq_none] using h
      simp [applyTxDb, hsp]
  | mixinTx d mx a => rfl
  | createDoc d => simp [inertTxB] at h
  | removeDoc d => simp [inertTxB] at h
  | collectionCUD d c t2 => simp [inertTxB] at h
  | applyIf d s2 l2 => simp [inertTxB] at h

lemma applyTxDb_remove (dd : TxData) (db : List Doc) :
    applyTxDb (Tx.removeDoc dd) db = db.filter (fun doc => doc.docId ≠ dd.objectId) := rfl

lemma applyTxDb_remove_lt (dd : TxData) (db : List Doc) (h : idLive db dd.objectId) :
    (applyTxDb (Tx.removeDoc dd) db).length < db.length := by
  rw [applyTxDb_remove]
  obtain ⟨doc, hmem, hid⟩ := h
  refine List.length_filter_lt_length_iff_exists.mpr ?_
  exact ⟨doc, hmem, by simp [hid]⟩

lemma applyTxDb_goodExtract_le (db : List Doc) (u : Tx) (h : goodExtract db u) :
    (applyTxDb u db).length ≤ db.length := by
  rcases h with ⟨dd, rfl, _⟩ | h
  · rw [applyTxDb_remove]
    exact List.length_filter_le _ _
  · rw [applyTxDb_inert u db h]

/-- Applying a list of transactions to the store, in order. -/
def applyAll (l : List Tx) (db : List Doc) : List Doc :=
  l.foldl (fun db t => applyTxDb t db) db

lemma applyAll_append (a b : List Tx) (db : List Doc) :
    applyAll (a ++ b) db = applyAll b (applyAll a db) := by
  simp [applyAll, List.foldl_append]

lemma idLive_preserved_inert (db : List Doc) (u : Tx) (h : inertTxB u = true)
    (id : Ref) (hl : idLive db id) : idLive (applyTxDb u db) id := by
  rw [applyTxDb_inert u db h]
  exact hl

/-- Transactions that never grow the store: plain removes and inert
updates.  (Unlike `goodExtract` this does not depend on the store, so it
is stable across intermediate states of a fold.) -/
def noGrowTx (u : Tx) : Prop :=
  (∃ dd : TxData, u = Tx.removeDoc dd) ∨ inertTxB u = true

lemma applyTxDb_noGrow_le (u : Tx) (db : List Doc) (h : noGrowTx u) :
    (applyTxDb u db).length ≤ db.length := by
  rcases h with ⟨dd, rfl⟩ | h
  · rw [applyTxDb_remove]
    exact List.length_filter_le _ _
  · rw [applyTxDb_inert u db h]

lemma goodExtract_noGrow (db : List Doc) (u : Tx) (h : goodExtract db u) : noGrowTx u := by
  rcases h with ⟨dd, hu, _⟩ | h
  · exact Or.inl ⟨dd, hu⟩
  · exact Or.inr h

lemma applyAll_noGrow_le :
    ∀ (l : List Tx) (db : List Doc), (∀ u ∈ l, noGrowTx u) →
      (applyAll l db).length ≤ db.length := by
  intro l
  induction l with
  | nil => intro db _; exact le_refl _
  | cons u l ih =>
      intro db h
      have step : applyAll (u :: l) db = applyAll l (applyTxDb u db) := rfl
      rw [step]
      exact le_trans (ih _ (fun v hv => h v (List.mem_cons_of_mem u hv)))
        (applyTxDb_noGrow_le u db (h u (List.mem_cons_self u l)))

lemma applyAll_goodExtract_lt :
    ∀ (l : List Tx) (db : List Doc), (∀ u ∈ l, goodExtract db u) →
      (∃ u ∈ l, ∃ dd : TxData, u = Tx.removeDoc dd) →
      (applyAll l db).length < db.length := by
  intro l
  induction l with
  | nil =>
      intro db _ hw
      simp at hw
  | cons u l ih =>
      intro db hg hw
      have step : applyAll (u :: l) db = applyAll l (applyTxDb u db) := rfl
      rw [step]
      rcases hg u (List.mem_cons_self u l) with ⟨dd, rfl, hlive⟩ | hin
      · have hle : (applyAll l (applyTxDb (Tx.removeDoc dd) db)).length ≤
            (applyTxDb (Tx.removeDoc dd) db).length :=
          applyAll_noGrow_le l _
            (fun v hv => goodExtract_noGrow db v (hg v (List.mem_cons_of_mem _ hv)))
        exact lt_of_le_of_lt hle (applyTxDb_remove_lt dd db hlive)
      · rw [applyTxDb_inert u db hin]
        apply ih db (fun v hv => hg v (List.mem_cons_of_mem _ hv))
        obtain ⟨w, hwmem, dd, hwd⟩ := hw
        rcases List.mem_cons.mp hwmem with rfl | hwl
        · rw [hwd] at hin
          simp [inertTxB] at hin
        · exact ⟨w, hwl, dd, hwd⟩

lemma processPart_db (s : ServerState) (part : List Tx) :
    (processPart s part).db = applyAll part s.db := by
  unfold processPart
  by_cases h : part.isEmpty = true
  · rw [if_pos h]
    rw [List.isEmpty_iff.mp h]
    rfl
  · rw [if_neg h]
    rfl

lemma routeTxLoop_db (env : Env) :
    ∀ (txes part : List Tx) (ld : Option DomainName) (s : ServerState)
      (calls : List (DomainName × List Tx)) (skipped : List Tx),
      (routeTxLoop env txes part ld s calls skipped).state.db =
        applyAll (part ++ exTxes txes) s.db := by
  intro txes
  induction txes with
  | nil =>
      intro part ld s calls skipped
      unfold routeTxLoop
      rw [show exTxes [] = [] from rfl, List.append_nil]
      by_cases h : part.isEmpty = true
      · rw [if_pos h]
        rw [List.isEmpty_iff.mp h]
        rfl
      · rw [if_neg h]
        exact processPart_db s part
  | cons tx rest ih =>
      intro part ld s calls skipped
      by_cases hcud : (Tx.extractTx tx).isCUD = true
      · have hex : exTxes (tx :: rest) = Tx.extractTx tx :: exTxes rest := by
          simp [exTxes, List.filter_cons, hcud]
        rw [hex]
        unfold routeTxLoop
        dsimp only
        rw [if_neg (by simp [hcud])]
        by_cases hpe : part.isEmpty = true
        · rw [if_pos hpe]
          rw [ih (part ++ [Tx.extractTx tx]) _ _ _ _]
          congr 1
          simp
        · rw [if_neg hpe]
          by_cases hdom : ld ≠ some (env.getDomain (Tx.extractTx tx).data.objectClass)
          · rw [if_pos hdom]
            rw [ih [Tx.extractTx tx] _ _ _ _]
            rw [processPart_db, ← applyAll_append]
            rfl
          · rw [if_neg hdom]
            rw [ih (part ++ [Tx.extractTx tx]) _ _ _ _]
            congr 1
            simp
      · have hex : exTxes (tx :: rest) = exTxes rest := by
          simp [exTxes, List.filter_cons, hcud]
        rw [hex]
        unfold routeTxLoop
        dsimp only
        rw [if_pos (by simp [hcud])]
        exact ih part ld s calls _

lemma routeTx_db (env : Env) (s : ServerState) (txes : List Tx) :
    (routeTx env s txes).state.db = applyAll (exTxes txes) s.db := by
  unfold routeTx
  rw [routeTxLoop_db]
  rfl

lemma exTxes_good (db : List Doc) (d : List Tx) (hg : ∀ t ∈ d, goodTx db t) :
    ∀ u ∈ exTxes d, goodExtract db u := by
  intro u hu
  simp only [exTxes, List.mem_filter, List.mem_map] at hu
  obtain ⟨⟨t, htd, rfl⟩, hcud⟩ := hu
  rcases hg t htd with ⟨id, hrt, hlive⟩ | hin
  · obtain ⟨dd, hext, hid⟩ := removeTarget_extract t id hrt
    refine Or.inl ⟨dd, hext, ?_⟩
    rw [hid]
    exact hlive
  · rw [(inert_extract t hin).1]
    exact Or.inr hin

lemma exTxes_has_remove (d : List Tx) (t : Tx) (htd : t ∈ d) (id : Ref)
    (hrt : removeTargetId t = some id) :
    ∃ u ∈ exTxes d, ∃ dd : TxData, u = Tx.removeDoc dd := by
  obtain ⟨dd, hext, _⟩ := removeTarget_extract t id hrt
  refine ⟨Tx.extractTx t, ?_, dd, hext⟩
  simp only [exTxes, List.mem_filter, List.mem_map]
  refine ⟨⟨t, htd, rfl⟩, ?_⟩
  rw [hext]
  rfl

lemma inert_removeTarget (t : Tx) (h : inertTxB t = true) : removeTargetId t = none := by
  cases t <;> simp_all [inertTxB, removeTargetId]

lemma goodTx_remove_live (db : List Doc) (t : Tx) (h : goodTx db t)
    (hs : (removeTargetId t).isSome = true) :
    ∃ id, removeTargetId t = some id ∧ idLive db id := by
  rcases h with hl | hr
  · exact hl
  · rw [inert_removeTarget t hr] at hs
    simp at hs

lemma goodTx_shape (db : List Doc) (t : Tx) (h : goodTx db t) :
    (removeTargetId t).isSome = true ∨ inertTxB t = true := by
  rcases h with ⟨id, heq, _⟩ | h
  · refine Or.inl ?_
    rw [heq]
    rfl
  · exact Or.inr h

lemma routeTx_shrink (env : Env) (s : ServerState) (d : List Tx)
    (hg : ∀ t ∈ d, goodTx s.db t)
    (hrem : ∃ t ∈ d, (removeTargetId t).isSome = true) :
    ((routeTx env s d).state.db).length < s.db.length := by
  rw [routeTx_db]
  obtain ⟨t, htd, hs⟩ := hrem
  obtain ⟨id, hid, -⟩ := goodTx_remove_live s.db t (hg t htd) hs
  exact applyAll_goodExtract_lt (exTxes d) s.db (exTxes_good s.db d hg)
    (exTxes_has_remove d t htd id hid)

lemma c1_attachedOf_sub (env : Env) (db : List Doc) (cls : ClassRef) (objectId : Ref)
    (to? : Option ClassRef) :
    ∀ d ∈ c1_attachedOf env db cls objectId to?, d ∈ db := by
  intro d hd
  simp only [c1_attachedOf, List.mem_flatMap] at hd
  obtain ⟨attr, -, hmem⟩ := hd
  by_cases h : env.isDerived attr.2.typeClass collectionClass = true
  · rw [if_pos h] at hmem
    simp only [findAll, List.mem_filter] at hmem
    exact hmem.1
  · rw [if_neg h] at hmem
    simp at hmem

lemma c1_docsFor_sub (env : Env) (db : List Doc) (object : Doc) (objectId : Ref)
    (hdd : env.collectDocs object.docClass = none) :
    ∀ d ∈ c1_docsFor env db object objectId, d ∈ db := by
  intro d hd
  simp only [c1_docsFor, hdd, List.append_nil, List.mem_append, List.mem_flatMap] at hd
  rcases hd with hd | ⟨mx, -, hd⟩
  · exact c1_attachedOf_sub env db _ _ _ d hd
  · exact c1_attachedOf_sub env db _ _ _ d hd

lemma c1_spec_mem (env : Env) (db : List Doc)
    (hdd : ∀ c, env.collectDocs c = none) :
    ∀ (txes : List Tx) (m : RMap) (t : Tx), t ∈ c1_spec env db txes m →
      ∃ doc, doc ∈ db ∧ t = c1_wrapRemove env doc := by
  intro txes
  induction txes with
  | nil =>
      intro m t ht
      simp [c1_spec] at ht
  | cons tx rest ih =>
      intro m t
      unfold c1_spec
      cases hx : Tx.extractTx tx with
      | removeDoc rtxd =>
          dsimp only
          cases hm : jsGet m rtxd.objectId with
          | none =>
              intro ht
              exact ih m t ht
          | some object =>
              intro ht
              dsimp only at ht
              rcases List.mem_append.mp ht with h1 | h2
              · obtain ⟨doc, hdoc, hw⟩ := List.mem_map.mp h1
                exact ⟨doc, c1_docsFor_sub env db object rtxd.objectId
                  (hdd object.docClass) doc hdoc, hw.symm⟩
              · exact ih _ t h2
      | createDoc d => exact ih m t
      | updateDoc d o => exact ih m t
      | mixinTx d mx a => exact ih m t
      | collectionCUD d c t2 => exact ih m t
      | applyIf d s2 l2 => exact ih m t

lemma wrapRemove_target (env : Env) (doc : Doc) :
    removeTargetId (c1_wrapRemove env doc) = some doc.docId := by
  unfold c1_wrapRemove
  by_cases h : env.isDerived doc.docClass attachedDocClass = true
  · rw [if_pos h]
    rfl
  · rw [if_neg h]
    rfl

lemma processRemove_inert (env : Env) (db : List Doc) :
    ∀ (d : List Tx) (m : RMap), (∀ t ∈ d, inertTxB t = true) →
      processRemove env db d m = ([], m) := by
  intro d
  induction d with
  | nil => intro m _; rfl
  | cons tx rest ih =>
      intro m h
      have htx := h tx (List.mem_cons_self tx rest)
      unfold processRemove
      rw [(inert_extract tx htx).1]
      cases tx with
      | updateDoc d0 ops => exact ih m (fun t ht => h t (List.mem_cons_of_mem _ ht))
      | mixinTx d0 mx a => exact ih m (fun t ht => h t (List.mem_cons_of_mem _ ht))
      | createDoc d0 => simp [inertTxB] at htx
      | removeDoc d0 => simp [inertTxB] at htx
      | collectionCUD d0 c t0 => simp [inertTxB] at htx
      | applyIf d0 s0 l0 => simp [inertTxB] at htx

lemma processCollection_inert_input (env : Env) (db : List Doc) :
    ∀ (d : List Tx) (m : RMap), (∀ t ∈ d, inertTxB t = true) →
      processCollection env db d m = [] := by
  intro d
  induction d with
  | nil => intro m _; rfl
  | cons tx rest ih =>
      intro m h
      have htx := h tx (List.mem_cons_self tx rest)
      unfold processCollection
      cases tx with
      | updateDoc d0 ops => exact ih m (fun t ht => h t (List.mem_cons_of_mem _ ht))
      | mixinTx d0 mx a => exact ih m (fun t ht => h t (List.mem_cons_of_mem _ ht))
      | createDoc d0 => simp [inertTxB] at htx
      | removeDoc d0 => simp [inertTxB] at htx
      | collectionCUD d0 c t0 => simp [inertTxB] at htx
      | applyIf d0 s0 l0 => simp [inertTxB] at htx

lemma processMove_nil (env : Env) (db : List Doc) :
    ∀ (txes : List Tx),
      (∀ t ∈ txes, (removeTargetId t).isSome = true ∨ inertTxB t = true) →
      processMove env db txes = [] := by
  intro txes
  induction txes with
  | nil => intro _; rfl
  | cons tx rest ih =>
      intro h
      have hrest : ∀ t ∈ rest, (removeTargetId t).isSome = true ∨ inertTxB t = true :=
        fun t ht => h t (List.mem_cons_of_mem tx ht)
      unfold processMove
      rcases h tx (List.mem_cons_self tx rest) with hr | hin
      · obtain ⟨id, hid⟩ := Option.isSome_iff_exists.mp hr
        obtain ⟨dd, hext, -⟩ := removeTarget_extract tx id hid
        rw [hext]
        exact ih hrest
      · rw [(inert_extract tx hin).1]
        cases tx with
        | updateDoc d0 ops =>
            have hsp : ops.space = none := by
              simpa [inertTxB, Option.isNone_iff_eq_none] using hin
            dsimp only
            rw [hsp]
            exact ih hrest
        | mixinTx d0 mx a => exact ih hrest
        | createDoc d0 => simp [inertTxB] at hin
        | removeDoc d0 => simp [inertTxB] at hin
        | collectionCUD d0 c t0 => simp [inertTxB] at hin
        | applyIf d0 s0 l0 => simp [inertTxB] at hin

lemma getCollectionUpdateTx_inert (env : Env) (_id : Ref) (_class : ClassRef)
    (modifiedBy : Ref) (modifiedOn : Int) (attachedTo : Doc) (update : DocumentUpdate)
    (hu : update.space = none) :
    inertTxB (getCollectionUpdateTx env _id _class modifiedBy modifiedOn
      attachedTo update) = true := by
  unfold getCollectionUpdateTx
  by_cases h : env.getBaseClass _class ≠ _class
  · rw [if_pos h]
    rfl
  · rw [if_neg h]
    simp [inertTxB, hu]

lemma updateCollection_inert (env : Env) (db : List Doc) (tx : Tx) :
    ∀ t ∈ updateCollection env db tx, inertTxB t = true := by
  intro t ht
  cases tx with
  | collectionCUD d col inner =>
      cases inner with
      | updateDoc di ops =>
          unfold updateCollection at ht
          dsimp only at ht
          by_cases hdom : env.getDomain d.objectClass = DOMAIN_MODEL
          · rw [if_pos hdom] at ht
            simp at ht
          · rw [if_neg hdom] at ht
            cases hat : ops.attachedTo with
            | none =>
                rw [hat] at ht
                simp at ht
            | some newParent =>
                rw [hat] at ht
                dsimp only at ht
                by_cases hself : newParent = d.objectId
                · rw [if_pos hself] at ht
                  simp at ht
                · rw [if_neg hself] at ht
                  rcases List.mem_append.mp ht with h1 | h2
                  · cases hh : (findAll env db d.objectClass (Query.byId d.objectId)).head? with
                    | none =>
                        rw [hh] at h1
                        simp at h1
                    | some oldDoc =>
                        rw [hh] at h1
                        dsimp only at h1
                        cases hfa : env.findAttribute oldDoc.docClass col with
                        | none =>
                            rw [hfa] at h1
                            simp at h1
                        | some a =>
                            rw [hfa] at h1
                            simp only [List.mem_singleton] at h1
                            rw [h1]
                            exact getCollectionUpdateTx_inert env _ _ _ _ _ _ rfl
                  · cases hh : (findAll env db (ops.attachedToClass.getD d.objectClass)
                        (Query.byId newParent)).head? with
                    | none =>
                        rw [hh] at h2
                        cases hfa : env.findAttribute (ops.attachedToClass.getD d.objectClass)
                            (ops.collection.getD col) with
                        | none =>
                            rw [hfa] at h2
                            simp at h2
                        | some a =>
                            rw [hfa] at h2
                            simp at h2
                    | some newDoc =>
                        rw [hh] at h2
                        cases hfa : env.findAttribute (ops.attachedToClass.getD d.objectClass)
                            (ops.collection.getD col) with
                        | none =>
                            rw [hfa] at h2
                            simp at h2
                        | some a =>
                            rw [hfa] at h2
                            simp only [List.mem_singleton] at h2
                            rw [h2]
                            exact getCollectionUpdateTx_inert env _ _ _ _ _ _ rfl
      | createDoc d2 => simp [updateCollection] at ht
      | removeDoc d2 => simp [updateCollection] at ht
      | mixinTx d2 mx a2 => simp [updateCollection] at ht
      | collectionCUD d2 c2 t2 => simp [updateCollection] at ht
      | applyIf d2 s2 l2 => simp [updateCollection] at ht
  | createDoc d => simp [updateCollection] at ht
  | updateDoc d o => simp [updateCollection] at ht
  | removeDoc d => simp [updateCollection] at ht
  | mixinTx d mx a => simp [updateCollection] at ht
  | applyIf d s2 l2 => simp [updateCollection] at ht

lemma processCollection_inert (env : Env) (db : List Doc) :
    ∀ (txes : List Tx) (m : RMap) (t : Tx), t ∈ processCollection env db txes m →
      inertTxB t = true := by
  intro txes
  induction txes with
  | nil =>
      intro m t ht
      simp [processCollection] at ht
  | cons tx rest ih =>
      intro m t ht
      cases tx with
      | collectionCUD d col inner =>
          unfold processCollection at ht
          dsimp only at ht
          by_cases hdom : env.getDomain d.objectClass = DOMAIN_MODEL
          · rw [if_pos hdom] at ht
            exact ih m t ht
          · rw [if_neg hdom] at ht
            rcases List.mem_append.mp ht with h12 | h3
            · rcases List.mem_append.mp h12 with h1 | h2
              · cases inner with
                | updateDoc di ops =>
                    simp at h1
                    exact updateCollection_inert env db _ t h1
                | createDoc d2 => simp at h1
                | removeDoc d2 => simp at h1
                | mixinTx d2 mx a2 => simp at h1
                | collectionCUD d2 c2 t2 => simp at h1
                | applyIf d2 s2 l2 => simp at h1
              · split at h2
                · cases hh : (findAll env db d.objectClass (Query.byId d.objectId)).head? with
                  | none =>
                      rw [hh] at h2
                      simp at h2
                  | some attachedTo =>
                      rw [hh] at h2
                      dsimp only at h2
                      simp only [List.mem_singleton] at h2
                      rw [h2]
                      exact getCollectionUpdateTx_inert env _ _ _ _ _ _ rfl
                · simp at h2
            · exact ih m t h3
      | createDoc d => exact ih m t ht
      | updateDoc d o => exact ih m t ht
      | removeDoc d => exact ih m t ht
      | mixinTx d mx a => exact ih m t ht
      | applyIf d s2 l2 => exact ih m t ht

lemma derivedOnce_good (env : Env) (htrig : ∀ l : List Tx, env.triggers l = [])
    (hdd : ∀ c, env.collectDocs c = none) (db : List Doc) (d : List Tx) (m0 : RMap)
    (hshape : ∀ t ∈ d, (removeTargetId t).isSome = true ∨ inertTxB t = true) :
    ∀ t ∈ (processRemove env db d m0).1
        ++ processCollection env db d (processRemove env db d m0).2
        ++ processMove env db d ++ env.triggers d,
      goodTx db t := by
  intro t ht
  rw [processMove_nil env db d hshape, htrig d] at ht
  simp only [List.append_nil] at ht
  rcases List.mem_append.mp ht with h1 | h2
  · rw [processRemove_eq] at h1
    obtain ⟨doc, hdb, hw⟩ := c1_spec_mem env db hdd d m0 t h1
    refine Or.inl ⟨doc.docId, ?_, doc, hdb, rfl⟩
    rw [hw]
    exact wrapRemove_target env doc
  · exact Or.inr (processCollection_inert env db d _ t h2)

lemma option_isSome_map {α β : Type} (f : α → β) (o : Option α) :
    (o.map f).isSome = o.isSome := by
  cases o <;> rfl

lemma derivedF_step (env : Env) (m : Nat) (s : ServerState) (d : List Tx) :
    processDerivedF m env s d =
      processDerivedTxesF m env
        { db := s.db, removedMap := (processRemove env s.db d s.removedMap).2 }
        ((processRemove env s.db d s.removedMap).1
          ++ processCollection env s.db d (processRemove env s.db d s.removedMap).2
          ++ processMove env s.db d ++ env.triggers d) := by
  simp only [processDerivedF]

lemma txesF_inert_term (env : Env) (htrig : ∀ l : List Tx, env.triggers l = [])
    (m : Nat) (s1 : ServerState) (d : List Tx)
    (hin : ∀ t ∈ d, inertTxB t = true) :
    (processDerivedF m env s1 d).isSome = true := by
  rw [derivedF_step]
  rw [processRemove_inert env s1.db d s1.removedMap hin]
  dsimp only
  rw [processCollection_inert_input env s1.db d s1.removedMap hin,
    processMove_nil env s1.db d (fun t ht => Or.inr (hin t ht)), htrig d]
  simp only [List.append_nil, List.nil_append]
  rw [processDerivedTxesF.eq_def]
  dsimp only
  rw [show sortTx ([] : List Tx) = [] from rfl]
  rfl

lemma txesF_term (env : Env) (htrig : ∀ l : List Tx, env.triggers l = [])
    (hdd : ∀ c, env.collectDocs c = none) :
    ∀ (bound : Nat) (s : ServerState) (D : List Tx) (n : Nat),
      (∀ t ∈ D, goodTx s.db t) → s.db.length ≤ bound → bound + 1 ≤ n →
      (processDerivedTxesF n env s D).isSome = true := by
  intro bound
  induction bound with
  | zero =>
      intro s D n hg hb hn
      have hdb : s.db = [] := List.length_eq_zero.mp (Nat.le_zero.mp hb)
      rw [processDerivedTxesF.eq_def]
      dsimp only
      by_cases hde : (sortTx D).isEmpty = true
      · rw [if_pos hde]
        rfl
      · rw [if_neg hde]
        obtain ⟨m, rfl⟩ : ∃ m, n = Nat.succ m := ⟨n - 1, by omega⟩
        dsimp only
        rw [option_isSome_map]
        apply txesF_inert_term env htrig
        intro t ht
        rcases hg t ((mem_sortTx t D).mp ht) with ⟨id, hrt, doc, hdoc, hid⟩ | h
        · rw [hdb] at hdoc
          simp at hdoc
        · exact h
  | succ b ih =>
      intro s D n hg hb hn
      rw [processDerivedTxesF.eq_def]
      dsimp only
      by_cases hde : (sortTx D).isEmpty = true
      · rw [if_pos hde]
        rfl
      · rw [if_neg hde]
        obtain ⟨m, rfl⟩ : ∃ m, n = Nat.succ m := ⟨n - 1, by omega⟩
        dsimp only
        rw [option_isSome_map]
        by_cases hrem : ∃ t ∈ sortTx D, (removeTargetId t).isSome = true
        · have hgs : ∀ t ∈ sortTx D, goodTx s.db t :=
            fun t ht => hg t ((mem_sortTx t D).mp ht)
          have hlt : ((routeTx env s (sortTx D)).state.db).length < s.db.length :=
            routeTx_shrink env s (sortTx D) hgs hrem
          rw [derivedF_step]
          exact ih _ _ m
            (derivedOnce_good env htrig hdd ((routeTx env s (sortTx D)).state.db)
              (sortTx D) ((routeTx env s (sortTx D)).state.removedMap)
              (fun t ht => goodTx_shape s.db t (hgs t ht)))
            (by dsimp only; omega) (by omega)
        · apply txesF_inert_term env htrig
          intro t ht
          rcases hg t ((mem_sortTx t D).mp ht) with hl | h
          · exfalso
            refine hrem ⟨t, ht, ?_⟩
            rcases hl with ⟨id, hrt, -⟩
            rw [hrt]
            rfl
          · exact h

/-- C3, amended.  With no registered triggers and no `ObjectDDParticipant`
collectors, a batch in which every transaction either removes a still-live
document (plain or wrapped in a `TxCollectionCUD`) or is an inert update
makes the `processDerived` / `processDerivedTxes` recursion terminate: each
pass routes its removes into storage, strictly shrinking the live document
set, and a pass whose derived output is empty stops the recursion, so a
recursion depth of `|db| + 2` always suffices. -/
theorem c3_remove_cascade_terminates (env : Env) (s : ServerState) (txes : List Tx)
    (htrig : ∀ l : List Tx, env.triggers l = [])
    (hdd : ∀ c : ClassRef, env.collectDocs c = none)
    (hgood : ∀ t ∈ txes, goodTx s.db t) :
    derivationTerminates env s txes := by
  refine ⟨s.db.length + 2, ?_⟩
  rw [derivedF_step]
  exact txesF_term env htrig hdd s.db.length _ _ _
    (derivedOnce_good env htrig hdd s.db txes s.removedMap
      (fun t ht => goodTx_shape s.db t (hgood t ht)))
    (le_refl _) (by omega)

/-- A client remove of the live document `X` of the cycle store. -/
def c3W : Tx :=
  Tx.removeDoc
    { modifiedBy := "u", modifiedOn := 1, space := spaceTx
      objectId := "X", objectClass := "C", objectSpace := "B" }

/-- Witness: on the concrete cycle environment (no triggers, no
collectors), the derivation loop terminates for the batch that removes the
live document `X`. -/
theorem c3_remove_cascade_terminates_witness :
    derivationTerminates envCyc cycS0 [c3W] :=
  c3_remove_cascade_terminates envCyc cycS0 [c3W]
    (fun _ => rfl) (fun _ => rfl)
    (fun t ht => by
      have hteq : t = c3W := by simpa using ht
      rw [hteq]
      exact Or.inl ⟨"X", rfl, cycX, by simp [cycS0], rfl⟩)
